import Mathlib

/-!
Verification of the jurigen DAG engine: a shallow embedding of the graph
model (`internal/dag`, `backend/internal/dag`), the DAG validator
(`DAGValidator` in the `usecase` package), the traversal engine
(`DAG.Walk`), the JSON (un)marshalling of graphs, and the repository tier
(`InMemoryDAGRepository`, `FileDAGRepository`, `HybridDAGRepository`).

Modelling conventions:
* `uuid.UUID` values are modelled as natural numbers; `uuid.Nil` is `0`.
  `uuid.String()` is modelled by an injective textual encoding
  (`uuidString`) with a partial inverse (`uuidParse`) standing for
  `uuid.Parse`; the concrete RFC-4122 hex form is irrelevant to every
  property proved here, only injectivity and parseability matter.
* Go maps (`map[uuid.UUID]*dag.DAG`, `map[uuid.UUID]Node`) are modelled
  as association lists with Go's assignment/delete/lookup semantics
  (`ainsert` replaces an existing binding, `aerase` removes it).  The
  unspecified Go map iteration order becomes the list order.
* Go slices are lists; `nil` pointers to optional values are `Option`.
* Functions whose Go originals recurse or loop without a structural
  bound (`dfs` in cycle validation, the BFS depth queue, `Walk`) take an
  explicit fuel argument; fuel-sufficiency lemmas below show the chosen
  fuel never runs out (except for `Walk` on cyclic inputs, where the Go
  original indeed diverges — see the termination theorem).
* I/O failures of the file tier (write errors, `os.Stat`, marshalling
  failures) are modelled by an explicit boolean failure injection
  parameter on each file-repository operation.
* `float64` metadata payloads are modelled by `Rat`; Go's
  `encoding/json` round-trips `float64` values exactly, which the model
  reflects by carrying the payload unchanged.
-/

namespace Jurigen

/-- Model of `uuid.UUID`; `uuid.Nil` is `0`. -/
abbrev UUID := Nat

/-- `uuid.Nil`. -/
def uuidNil : UUID := 0

/-- Model of `uuid.UUID.String()`: an injective textual encoding
(`"u"` followed by a tally of `'x'`s), abstracting the RFC-4122 form. -/
def uuidString (u : UUID) : String := String.mk ('u' :: List.replicate u 'x')

/-- Model of `uuid.Parse`: the partial inverse of `uuidString`. -/
def uuidParse (s : String) : Option UUID :=
  match s.data with
  | 'u' :: rest => if rest.all (fun c => c = 'x') then some rest.length else none
  | _ => none

/-- Go metadata values (`map[string]interface{}` entries): scalars,
a concretely typed string slice (such as the `tags` value built by
`CLIFnAnswerWithContext`), and the generic containers produced by
`encoding/json` decoding. -/
inductive GoVal where
  | vNull : GoVal
  | vBool : Bool → GoVal
  | vNum : Rat → GoVal
  | vStr : String → GoVal
  | vStrArr : List String → GoVal
  | vArr : List GoVal → GoVal
  | vObj : List (String × GoVal) → GoVal

/-- JSON documents (the wire format owned by the core). -/
inductive Json where
  | jNull : Json
  | jBool : Bool → Json
  | jNum : Rat → Json
  | jStr : String → Json
  | jArr : List Json → Json
  | jObj : List (String × Json) → Json

/-- `dag.Answer` (backend variant): identity, statement, optional next
node, non-owning back reference to the parent node (modelled as a
parent-id lookup key), user notes and the metadata bag. -/
structure Answer where
  Id : UUID
  Statement : String
  NextNode : Option UUID
  ParentNode : Option UUID
  UserContext : String
  Metadata : List (String × GoVal)

/-- `dag.Node`. -/
structure Node where
  Id : UUID
  Question : String
  Answers : List Answer

/-- `dag.DAG`: identity, title and the id-keyed node map. -/
structure DAG where
  Id : UUID
  Title : String
  Nodes : List (UUID × Node)

/-- Go map lookup `m[k]`. -/
def alookup {α : Type} : List (UUID × α) → UUID → Option α
  | [], _ => none
  | (k, v) :: rest, k' => if k = k' then some v else alookup rest k'

/-- Go map deletion `delete(m, k)`. -/
def aerase {α : Type} (k : UUID) (l : List (UUID × α)) : List (UUID × α) :=
  l.filter (fun p => p.1 ≠ k)

/-- Go map assignment `m[k] = v` (replaces any existing binding). -/
def ainsert {α : Type} (k : UUID) (v : α) (l : List (UUID × α)) : List (UUID × α) :=
  (k, v) :: aerase k l

/-- `DAG.GetNode`: `Option` models the `"node not found"` error. -/
def DAG.GetNode (d : DAG) (id : UUID) : Option Node :=
  alookup d.Nodes id

/-- The keys of the node map (`for nodeId := range d.Nodes`). -/
def nodeKeys (d : DAG) : List UUID := d.Nodes.map (fun p => p.1)

/-- The `next_node` targets of one node's answers. -/
def childIds (d : DAG) (id : UUID) : List UUID :=
  match d.GetNode id with
  | some n => n.Answers.filterMap (fun a => a.NextNode)
  | none => []

/-- All node ids referenced as some answer's `next_node`
(the `referencedNodes` set of `validateRootNode`/`GetRootNode`). -/
def referencedNodeIds (d : DAG) : List UUID :=
  (d.Nodes.map (fun p => p.2.Answers.filterMap (fun a => a.NextNode))).flatten

/-- Root candidates: node-map keys not referenced by any answer. -/
def rootIds (d : DAG) : List UUID :=
  (nodeKeys d).filter (fun k => k ∉ referencedNodeIds d)

/-- The `next_node` edge relation of a graph: there is an edge from `a`
to `b` when node `a` exists and one of its answers points to `b`. -/
def Edge (d : DAG) (a b : UUID) : Prop := b ∈ childIds d a

instance (d : DAG) (a b : UUID) : Decidable (Edge d a b) := by
  unfold Edge; infer_instance

/-- A graph is cyclic when some node reaches itself through at least one
`next_node` edge. -/
def Cyclic (d : DAG) : Prop := ∃ x, Relation.TransGen (Edge d) x x

/-- The `next_node` reference relation is acyclic. -/
def Acyclic (d : DAG) : Prop := ∀ x, ¬ Relation.TransGen (Edge d) x x

/-! ### Validator: value types (`usecase` package) -/

/-- `usecase.ValidationError`. -/
structure ValidationError where
  Code : String
  Message : String
  NodeID : String
  AnswerID : String
  Severity : String

/-- `usecase.ValidationStatistics`. -/
structure ValidationStatistics where
  TotalNodes : Nat
  RootNodes : Nat
  LeafNodes : Nat
  TotalAnswers : Nat
  MaxDepth : Nat
  HasCycles : Bool
  RootNodeIDs : List String
  LeafNodeIDs : List String
  CyclePaths : List String

/-- `usecase.ValidationResult` (warnings are never produced by the
validator, they stay empty). -/
structure ValidationResult where
  IsValid : Bool
  Errors : List ValidationError
  Warnings : List ValidationError
  Statistics : ValidationStatistics

/-- Go's `fmt.Sprintf("%v", slice)` rendering of a string slice. -/
def goStrListRepr (l : List String) : String :=
  "[" ++ String.intercalate " " l ++ "]"

/-- `validateBasicStructure`: empty id, empty title, zero nodes. -/
def validateBasicStructure (d : DAG) : List ValidationError :=
  (if d.Id = uuidNil then
    [⟨"DAG_INVALID_ID", "DAG ID cannot be empty", "", "", "error"⟩] else []) ++
  (if d.Title = "" then
    [⟨"DAG_EMPTY_TITLE", "DAG title cannot be empty", "", "", "error"⟩] else []) ++
  (if d.Nodes.length = 0 then
    [⟨"DAG_NO_NODES", "DAG must contain at least one node", "", "", "error"⟩] else [])

/-- `validateAnswers`: per-answer id/statement/reference checks of one node. -/
def validateAnswers (d : DAG) (node : Node) : List ValidationError :=
  (node.Answers.enum.map (fun ai =>
    (if ai.2.Id = uuidNil then
      [⟨"ANSWER_INVALID_ID",
        "answer " ++ toString ai.1 ++ " in node " ++ uuidString node.Id ++
          " must have a valid ID",
        uuidString node.Id, "", "error"⟩] else []) ++
    (if ai.2.Statement = "" then
      [⟨"ANSWER_EMPTY_STATEMENT",
        "answer " ++ uuidString ai.2.Id ++ " in node " ++ uuidString node.Id ++
          " must have a non-empty statement",
        uuidString node.Id, uuidString ai.2.Id, "error"⟩] else []) ++
    (match ai.2.NextNode with
     | some nxt =>
       if (d.GetNode nxt).isSome then []
       else
         [⟨"ANSWER_INVALID_REFERENCE",
           "answer " ++ uuidString ai.2.Id ++ " references non-existent next node " ++
             uuidString nxt,
           uuidString node.Id, uuidString ai.2.Id, "error"⟩]
     | none => []))).flatten

/-- `validateNodes`: key/identity mismatch, empty question, then the
answer checks, in node-map order. -/
def validateNodes (d : DAG) : List ValidationError :=
  (d.Nodes.map (fun kv =>
    (if kv.1 ≠ kv.2.Id then
      [⟨"NODE_ID_MISMATCH",
        "node map key " ++ uuidString kv.1 ++ " does not match node ID " ++
          uuidString kv.2.Id,
        uuidString kv.2.Id, "", "error"⟩] else []) ++
    (if kv.2.Question = "" then
      [⟨"NODE_EMPTY_QUESTION",
        "node " ++ uuidString kv.2.Id ++ " must have a non-empty question",
        uuidString kv.2.Id, "", "error"⟩] else []) ++
    validateAnswers d kv.2)).flatten

/-- The `DAG_MULTIPLE_ROOTS` message of `validateRootNode`. -/
def multipleRootsMsg (roots : List UUID) : String :=
  "DAG has " ++ toString roots.length ++
    " root nodes, expected exactly 1. Root nodes: " ++
    goStrListRepr (roots.map uuidString)

/-- `validateRootNode`: zero roots and multiple roots errors. -/
def rootErrors (roots : List UUID) : List ValidationError :=
  if roots.length = 0 then
    [⟨"DAG_NO_ROOT", "DAG has no root node - this indicates a circular reference",
      "", "", "error"⟩]
  else if roots.length > 1 then
    [⟨"DAG_MULTIPLE_ROOTS", multipleRootsMsg roots, "", "", "error"⟩]
  else []

/-! ### Validator: cycle detection (`validateCycles`) -/

/-- The mutable state shared by the `dfs` closure of `validateCycles`:
the `visited` set, the `inStack` set and the accumulated cycle paths
(kept here in structural form; the validator renders them to strings). -/
structure CycState where
  visited : List UUID
  inStack : List UUID
  cycles : List (List UUID)

/-- The suffix of `path` from the first occurrence of `c`
(`path[cycleStart:]` for the first index with `path[i] == c`). -/
def dropToFirst (c : UUID) : List UUID → List UUID
  | [] => []
  | x :: xs => if x = c then x :: xs else dropToFirst c xs

/-- The cycle path recorded on an `inStack` hit: `path[cycleStart:]`
closed with the hit node itself, recorded only when the hit node occurs
in the current path (`cycleStart >= 0`). -/
def recordCycle (c : UUID) (path : List UUID) (cycles : List (List UUID)) :
    List (List UUID) :=
  if c ∈ path then cycles ++ [dropToFirst c path ++ [c]] else cycles

/-- The `for _, answer := range node.Answers { if dfs(...) return true }`
loop: children are explored left to right with the recursive visit `f`,
aborting on the first cycle found. -/
def dfsKids (f : UUID → List UUID → CycState → Option (Bool × CycState)) :
    List UUID → List UUID → CycState → Option (Bool × CycState)
  | [], _, st => some (false, st)
  | c :: cs, path, st =>
    match f c path st with
    | none => none
    | some (true, st2) => some (true, st2)
    | some (false, st2) => dfsKids f cs path st2

/-- The recursive `dfs(nodeId, path)` of `validateCycles`.  Returns
`none` on fuel exhaustion (shown impossible for the fuel chosen below). -/
def dfsVisit (d : DAG) : Nat → UUID → List UUID → CycState →
    Option (Bool × CycState)
  | 0, _, _, _ => none
  | fuel + 1, c, path, st =>
    if c ∈ st.inStack then
      some (true, ⟨st.visited, st.inStack, recordCycle c path st.cycles⟩)
    else if c ∈ st.visited then
      some (false, st)
    else
      let st1 : CycState := ⟨c :: st.visited, c :: st.inStack, st.cycles⟩
      match dfsKids (dfsVisit d fuel) (childIds d c) (path ++ [c]) st1 with
      | none => none
      | some (true, st2) => some (true, st2)
      | some (false, st2) =>
        some (false, ⟨st2.visited, st2.inStack.erase c, st2.cycles⟩)

/-- Every id the `dfs` can ever mark visited: node-map keys plus every
`next_node` target (deduplicated, for fuel counting). -/
def allIdsD (d : DAG) : List UUID :=
  (nodeKeys d ++ referencedNodeIds d).dedup

/-- Fuel that always suffices for `dfsVisit` (one unit per freshly
visited id plus one). -/
def cycFuel (d : DAG) : Nat := (allIdsD d).length + 1

/-- The outer `for nodeId := range d.Nodes { if !visited[nodeId] ... }`
loop of `validateCycles`. -/
def cyclesLoop (d : DAG) : List UUID → Bool → CycState →
    Option (Bool × CycState)
  | [], h, st => some (h, st)
  | k :: ks, h, st =>
    if k ∈ st.visited then cyclesLoop d ks h st
    else
      match dfsVisit d (cycFuel d) k [] st with
      | none => none
      | some (b, st2) => cyclesLoop d ks (h || b) st2

/-- `validateCycles`, reduced to its observable outcome: the `hasCycles`
flag and the recorded cycle paths in structural form. -/
def validateCyclesRes (d : DAG) : Bool × List (List UUID) :=
  match cyclesLoop d (nodeKeys d) false ⟨[], [], []⟩ with
  | some (h, st) => (h, st.cycles)
  | none => (false, [])

/-- The structural cycle paths reported by validation (first component
of each rendered `CyclePaths` entry). -/
def rawCyclePaths (d : DAG) : List (List UUID) := (validateCyclesRes d).2

/-! ### Validator: statistics (`calculateStatistics` / `calculateMaxDepth`) -/

/-- A node is a leaf when it has no answers or every answer is terminal. -/
def isLeafNode (n : Node) : Bool :=
  n.Answers.isEmpty || n.Answers.all (fun a => a.NextNode.isNone)

/-- The leaf node ids (map keys, in map order, rendered as strings). -/
def leafIdStrings (d : DAG) : List String :=
  ((d.Nodes.filter (fun kv => isLeafNode kv.2)).map (fun kv => uuidString kv.1))

/-- Total answer count over all nodes. -/
def totalAnswersD (d : DAG) : Nat :=
  (d.Nodes.map (fun kv => kv.2.Answers.length)).sum

/-- The BFS work-list loop of `calculateMaxDepth`: pop `(node, depth)`,
skip visited nodes, record the depth, push unvisited children one level
deeper.  `none` on fuel exhaustion (shown impossible for `bfsFuel`). -/
def bfsAux (d : DAG) : Nat → List (UUID × Nat) → List UUID → Nat → Option Nat
  | _, [], _, maxD => some maxD
  | 0, _ :: _, _, _ => none
  | fuel + 1, (id, dep) :: rest, visited, maxD =>
    if id ∈ visited then bfsAux d fuel rest visited maxD
    else
      let visited' := id :: visited
      let pushes := ((childIds d id).filter (fun c => c ∉ visited')).map
        (fun c => (c, dep + 1))
      bfsAux d fuel (rest ++ pushes) visited' (if dep > maxD then dep else maxD)

/-- Fuel that always suffices for the BFS work list. -/
def bfsFuel (d : DAG) : Nat := totalAnswersD d + 2

/-- The number of queue pushes the BFS can still perform: the answers of
the nodes not yet visited (the fuel-sufficiency measure). -/
def bfsPotential (d : DAG) (vis : List UUID) : Nat :=
  (((allIdsD d).filter (fun x => x ∉ vis)).map
    (fun x => (childIds d x).length)).sum

/-- `calculateMaxDepth(d, rootNodeID)`: parse the root id string, then
run the BFS; `0` on an empty or unparsable id. -/
def calculateMaxDepth (d : DAG) (rootNodeID : String) : Nat :=
  if rootNodeID = "" then 0
  else
    match uuidParse rootNodeID with
    | none => 0
    | some rid => (bfsAux d (bfsFuel d) [(rid, 0)] [] 0).getD 0

/-- The statistics record assembled by `validateRootNode`,
`validateCycles` and `calculateStatistics`. -/
def buildStatistics (d : DAG) (roots : List UUID) (hasCycles : Bool)
    (rawCycles : List (List UUID)) : ValidationStatistics :=
  let rootStrs := roots.map uuidString
  ⟨d.Nodes.length, roots.length, (leafIdStrings d).length, totalAnswersD d,
    (match rootStrs, hasCycles with
     | r0 :: _, false => calculateMaxDepth d r0
     | _, _ => 0),
    hasCycles, rootStrs, leafIdStrings d,
    rawCycles.map (fun p => goStrListRepr (p.map uuidString))⟩

/-- `DAGValidator.ValidateDAG`: a nil graph is one error; otherwise all
checks run and accumulate errors in order (basic structure, per-node,
root detection, cycle detection), and statistics are always produced. -/
def ValidateDAG (od : Option DAG) : ValidationResult :=
  match od with
  | none =>
    ⟨false, [⟨"DAG_NULL", "DAG cannot be nil", "", "", "error"⟩], [],
      ⟨0, 0, 0, 0, 0, false, [], [], []⟩⟩
  | some d =>
    let roots := rootIds d
    let cyc := validateCyclesRes d
    let errs := validateBasicStructure d ++ validateNodes d ++ rootErrors roots ++
      (if cyc.1 then
        [⟨"DAG_HAS_CYCLES",
          "DAG contains " ++ toString cyc.2.length ++
            " cycle(s). A valid DAG must be acyclic",
          "", "", "error"⟩] else [])
    ⟨errs.isEmpty, errs, [], buildStatistics d roots cyc.1 cyc.2⟩

/-- `DAGValidator.IsValidDAG`. -/
def IsValidDAG (od : Option DAG) : Bool := (ValidateDAG od).IsValid

/-! ### Traversal engine (`DAG.Walk`) -/

/-- The error outcomes of `DAG.Walk`, in structural form. -/
inductive WalkErr where
  | nodeNotFound : UUID → WalkErr
  | answerFnError : UUID → String → WalkErr
  | invalidAnswer : UUID → UUID → WalkErr
deriving DecidableEq

/-- The loop of `DAG.Walk`: fetch the current node (failure: error with
the partial path), stop on a node without answers, ask the strategy for
an answer (failure: error), check the candidate's id against the current
node's own answers (failure: `invalidAnswer`), append it to the path and
follow its `next_node` if any.  The Go loop is unbounded; `none` models
non-termination within the given fuel. -/
def walkF (d : DAG) (fnAnswer : Node → Except String Answer) :
    Nat → UUID → List Answer → Option (List Answer × Option WalkErr)
  | 0, _, _ => none
  | fuel + 1, cur, path =>
    match d.GetNode cur with
    | none => some (path, some (.nodeNotFound cur))
    | some node =>
      if node.Answers.length = 0 then some (path, none)
      else
        match fnAnswer node with
        | .error e => some (path, some (.answerFnError cur e))
        | .ok sel =>
          if node.Answers.any (fun a => a.Id = sel.Id) then
            let path' := path ++ [sel]
            match sel.NextNode with
            | none => some (path', none)
            | some nxt => walkF d fnAnswer fuel nxt path'
          else some (path, some (.invalidAnswer sel.Id cur))

/-- `DAG.Walk(startNodeId, fnAnswer)`, with fuel one larger than the
node count (sufficient whenever the graph is acyclic). -/
def DAG.Walk (d : DAG) (start : UUID) (fnAnswer : Node → Except String Answer) :
    Option (List Answer × Option WalkErr) :=
  walkF d fnAnswer (d.Nodes.length + 1) start []

/-- The `internal/dag` variant of the walk loop: it looks the strategy's
choice up among the node's own answers and appends *and follows the
matched answer* (`validAnswer`) rather than the strategy's value. -/
def walkGoF (d : DAG) (fnAnswer : Node → Except String Answer) :
    Nat → UUID → List Answer → Option (List Answer × Option WalkErr)
  | 0, _, _ => none
  | fuel + 1, cur, path =>
    match d.GetNode cur with
    | none => some (path, some (.nodeNotFound cur))
    | some node =>
      if node.Answers.length = 0 then some (path, none)
      else
        match fnAnswer node with
        | .error e => some (path, some (.answerFnError cur e))
        | .ok sel =>
          match node.Answers.find? (fun a => a.Id = sel.Id) with
          | none => some (path, some (.invalidAnswer sel.Id cur))
          | some validAnswer =>
            let path' := path ++ [validAnswer]
            match validAnswer.NextNode with
            | none => some (path', none)
            | some nxt => walkGoF d fnAnswer fuel nxt path'

/-! ### Repository tier -/

/-- The error taxonomy of the `usecase` package (`ErrNotFound`,
`ErrInvalidCommand`, `ErrInternal`) plus plain `fmt.Errorf` errors. -/
inductive ErrKind where
  | errNotFound : ErrKind
  | errInvalidCommand : ErrKind
  | errInternal : ErrKind
  | errPlain : ErrKind
deriving DecidableEq

/-- A repository error: its taxonomy class and its message. -/
structure RepoErr where
  kind : ErrKind
  msg : String
deriving DecidableEq

/-- The in-memory store (`map[uuid.UUID]*dag.DAG`). -/
abbrev MemStore := List (UUID × DAG)

/-- The file store: one serialized document per graph identity.  File
contents are kept as the graph they decode to. -/
abbrev FileStore := List (UUID × DAG)

/-- `InMemoryDAGRepository.Create`: a nil graph is rejected, otherwise
the graph is stored unconditionally (an existing binding is replaced). -/
def memCreate (m : MemStore) (dagObj : Option DAG) : MemStore × Option RepoErr :=
  match dagObj with
  | none => (m, some ⟨.errInvalidCommand, "DAG cannot be nil"⟩)
  | some g => (ainsert g.Id g m, none)

/-- `InMemoryDAGRepository.Get`. -/
def memGet (m : MemStore) (id : UUID) : Except RepoErr DAG :=
  match alookup m id with
  | some g => .ok g
  | none =>
    .error ⟨.errNotFound, "DAG with id " ++ uuidString id ++ " not found in memory"⟩

/-- `InMemoryDAGRepository.Delete`. -/
def memDelete (m : MemStore) (id : UUID) : MemStore × Option RepoErr :=
  if (alookup m id).isSome then (aerase id m, none)
  else (m, some ⟨.errNotFound, "DAG with id " ++ uuidString id ++ " not found in memory"⟩)

/-- `InMemoryDAGRepository.Update`: read, apply the transform, verify
the identity did not change, store. -/
def memUpdate (m : MemStore) (id : UUID) (fnUpdate : DAG → Except String DAG) :
    MemStore × Option RepoErr :=
  match alookup m id with
  | none =>
    (m, some ⟨.errNotFound, "DAG with id " ++ uuidString id ++ " not found in memory"⟩)
  | some existing =>
    match fnUpdate existing with
    | .error e => (m, some ⟨.errPlain, "update function failed: " ++ e⟩)
    | .ok updated =>
      if updated.Id ≠ existing.Id then
        (m, some ⟨.errInvalidCommand,
          "update function cannot change DAG ID from " ++ uuidString existing.Id ++
            " to " ++ uuidString updated.Id⟩)
      else (ainsert id updated m, none)

/-- `FileDAGRepository.Create`: refuses to overwrite an existing
document; `ioFail` injects a marshalling/mkdir/write failure. -/
def fileCreate (fs : FileStore) (dagObj : Option DAG) (ioFail : Bool) :
    FileStore × Option RepoErr :=
  match dagObj with
  | none => (fs, some ⟨.errInvalidCommand, "DAG cannot be nil"⟩)
  | some g =>
    if (alookup fs g.Id).isSome then
      (fs, some ⟨.errInvalidCommand,
        "DAG with id " ++ uuidString g.Id ++ " already exists"⟩)
    else if ioFail then
      (fs, some ⟨.errInternal, "error writing file"⟩)
    else (ainsert g.Id g fs, none)

/-- `FileDAGRepository.Update`: read the document, apply the transform,
verify the identity, overwrite; `ioFail` injects a write failure. -/
def fileUpdate (fs : FileStore) (id : UUID) (fnUpdate : DAG → Except String DAG)
    (ioFail : Bool) : FileStore × Option RepoErr :=
  match alookup fs id with
  | none => (fs, some ⟨.errNotFound, "error reading file " ++ uuidString id⟩)
  | some existing =>
    match fnUpdate existing with
    | .error e => (fs, some ⟨.errPlain, "update function failed: " ++ e⟩)
    | .ok updated =>
      if updated.Id ≠ existing.Id then
        (fs, some ⟨.errInvalidCommand,
          "update function cannot change DAG ID from " ++ uuidString existing.Id ++
            " to " ++ uuidString updated.Id⟩)
      else if ioFail then (fs, some ⟨.errInternal, "error writing updated file"⟩)
      else (ainsert id updated fs, none)

/-- `FileDAGRepository.Delete`; `ioFail` injects an `os.Remove` failure. -/
def fileDelete (fs : FileStore) (id : UUID) (ioFail : Bool) :
    FileStore × Option RepoErr :=
  if (alookup fs id).isNone then
    (fs, some ⟨.errNotFound,
      "DAG with id " ++ uuidString id ++ " not found in file system"⟩)
  else if ioFail then (fs, some ⟨.errInternal, "error deleting file"⟩)
  else (aerase id fs, none)

/-- `HybridDAGRepository.Create`: memory first; with write-through, a
file failure rolls the memory insert back and reports the error. -/
def hybridCreate (writeThrough : Bool) (mem : MemStore) (fs : FileStore)
    (dagObj : Option DAG) (ioFail : Bool) : MemStore × FileStore × Option RepoErr :=
  match dagObj with
  | none =>
    (mem, fs, some ⟨.errInvalidCommand, "failed to create DAG in memory: DAG cannot be nil"⟩)
  | some g =>
    let m1 := (memCreate mem (some g)).1
    if writeThrough then
      match fileCreate fs (some g) ioFail with
      | (_, some e) =>
        ((memDelete m1 g.Id).1, fs,
          some ⟨e.kind, "failed to create DAG in file (memory rolled back): " ++ e.msg⟩)
      | (fs1, none) => (m1, fs1, none)
    else (m1, fs, none)

/-- `HybridDAGRepository.Update`: memory first; with write-through, a
file failure is reported but the memory mutation is kept. -/
def hybridUpdate (writeThrough : Bool) (mem : MemStore) (fs : FileStore)
    (id : UUID) (fnUpdate : DAG → Except String DAG) (ioFail : Bool) :
    MemStore × FileStore × Option RepoErr :=
  match memUpdate mem id fnUpdate with
  | (_, some e) =>
    (mem, fs, some ⟨e.kind, "failed to update DAG in memory: " ++ e.msg⟩)
  | (m1, none) =>
    if writeThrough then
      match fileUpdate fs id fnUpdate ioFail with
      | (_, some e) =>
        (m1, fs, some ⟨e.kind, "failed to update DAG in file: " ++ e.msg⟩)
      | (fs1, none) => (m1, fs1, none)
    else (m1, fs, none)

/-- `HybridDAGRepository.Delete`: memory first; with write-through, a
file failure is reported but the memory deletion is kept. -/
def hybridDelete (writeThrough : Bool) (mem : MemStore) (fs : FileStore)
    (id : UUID) (ioFail : Bool) : MemStore × FileStore × Option RepoErr :=
  match memDelete mem id with
  | (_, some e) =>
    (mem, fs, some ⟨e.kind, "failed to delete DAG from memory: " ++ e.msg⟩)
  | (m1, none) =>
    if writeThrough then
      match fileDelete fs id ioFail with
      | (_, some e) =>
        (m1, fs, some ⟨e.kind, "failed to delete DAG from file: " ++ e.msg⟩)
      | (fs1, none) => (m1, fs1, none)
    else (m1, fs, none)

/-! ### JSON marshalling (`DAG.MarshalJSON` / `DAG.UnmarshalJSON`) -/

mutual

/-- `encoding/json` encoding of a metadata value. -/
def goToJson : GoVal → Json
  | .vNull => .jNull
  | .vBool b => .jBool b
  | .vNum q => .jNum q
  | .vStr s => .jStr s
  | .vStrArr l => .jArr (l.map (fun s => .jStr s))
  | .vArr l => .jArr (goListToJson l)
  | .vObj l => .jObj (goObjToJson l)

/-- Elementwise encoding of a generic array. -/
def goListToJson : List GoVal → List Json
  | [] => []
  | v :: vs => goToJson v :: goListToJson vs

/-- Entrywise encoding of a generic map. -/
def goObjToJson : List (String × GoVal) → List (String × Json)
  | [] => []
  | (k, v) :: kvs => (k, goToJson v) :: goObjToJson kvs

end

mutual

/-- `encoding/json` decoding into `interface{}`: numbers become
`float64`, arrays become `[]interface{}`, objects become
`map[string]interface{}`. -/
def jsonToGo : Json → GoVal
  | .jNull => .vNull
  | .jBool b => .vBool b
  | .jNum q => .vNum q
  | .jStr s => .vStr s
  | .jArr l => .vArr (jsonListToGo l)
  | .jObj l => .vObj (jsonObjToGo l)

/-- Elementwise generic decoding of an array. -/
def jsonListToGo : List Json → List GoVal
  | [] => []
  | v :: vs => jsonToGo v :: jsonListToGo vs

/-- Entrywise generic decoding of an object. -/
def jsonObjToGo : List (String × Json) → List (String × GoVal)
  | [] => []
  | (k, v) :: kvs => (k, jsonToGo v) :: jsonObjToGo kvs

end

mutual

/-- What one JSON round trip does to a metadata value: scalars are kept
exactly, concretely typed slices and all nested containers come back as
generic containers with the same contents. -/
def genericizeVal : GoVal → GoVal
  | .vNull => .vNull
  | .vBool b => .vBool b
  | .vNum q => .vNum q
  | .vStr s => .vStr s
  | .vStrArr l => .vArr (l.map (fun s => .vStr s))
  | .vArr l => .vArr (genericizeList l)
  | .vObj l => .vObj (genericizeObj l)

/-- Elementwise round-trip image of a generic array. -/
def genericizeList : List GoVal → List GoVal
  | [] => []
  | v :: vs => genericizeVal v :: genericizeList vs

/-- Entrywise round-trip image of a generic map. -/
def genericizeObj : List (String × GoVal) → List (String × GoVal)
  | [] => []
  | (k, v) :: kvs => (k, genericizeVal v) :: genericizeObj kvs

end

/-- JSON encoding of one answer: `id`, `answer`, `next_node` (null for a
terminal answer), `user_context` and `metadata` only when non-empty
(`omitempty`), and no `ParentNode` field (tagged `json:"-"`). -/
def marshalAnswer (a : Answer) : Json :=
  .jObj ([("id", .jStr (uuidString a.Id)), ("answer", .jStr a.Statement),
    ("next_node", match a.NextNode with
      | some nxt => .jStr (uuidString nxt)
      | none => .jNull)] ++
    (if a.UserContext = "" then [] else [("user_context", .jStr a.UserContext)]) ++
    (if a.Metadata.isEmpty then [] else [("metadata", .jObj (goObjToJson a.Metadata))]))

/-- JSON encoding of one node. -/
def marshalNode (n : Node) : Json :=
  .jObj [("id", .jStr (uuidString n.Id)), ("question", .jStr n.Question),
    ("answers", .jArr (n.Answers.map marshalAnswer))]

/-- `DAG.MarshalJSON`: the node map is flattened (in map order) into the
`nodes` array of the `dagJSON` wire shape. -/
def marshalDAG (d : DAG) : Json :=
  .jObj [("id", .jStr (uuidString d.Id)), ("title", .jStr d.Title),
    ("nodes", .jArr (d.Nodes.map (fun kv => marshalNode kv.2)))]

/-- Field access in a decoded JSON object. -/
def jField (l : List (String × Json)) (k : String) : Option Json :=
  match l with
  | [] => none
  | (k', v) :: rest => if k' = k then some v else jField rest k

/-- Decoding a `string` struct field: a missing field keeps the zero
value, a present field must be a JSON string. -/
def decodeStrField (l : List (String × Json)) (k : String) : Except String String :=
  match jField l k with
  | none => .ok ""
  | some (.jStr s) => .ok s
  | some _ => .error ("field " ++ k ++ " is not a string")

/-- Decoding a `uuid.UUID` struct field: a missing field keeps
`uuid.Nil`, a present field must be a parsable uuid string. -/
def decodeUUIDField (l : List (String × Json)) (k : String) : Except String UUID :=
  match jField l k with
  | none => .ok uuidNil
  | some (.jStr s) =>
    match uuidParse s with
    | some u => .ok u
    | none => .error ("field " ++ k ++ " is not a valid UUID")
  | some _ => .error ("field " ++ k ++ " is not a valid UUID")

/-- Decoding a `*uuid.UUID` field (`next_node`): absent and `null` both
give the nil pointer. -/
def decodeNextNodeField (l : List (String × Json)) : Except String (Option UUID) :=
  match jField l "next_node" with
  | none => .ok none
  | some .jNull => .ok none
  | some (.jStr s) =>
    match uuidParse s with
    | some u => .ok (some u)
    | none => .error "field next_node is not a valid UUID"
  | some _ => .error "field next_node is not a valid UUID"

/-- Decoding the `metadata` field into `map[string]interface{}`. -/
def decodeMetadataField (l : List (String × Json)) :
    Except String (List (String × GoVal)) :=
  match jField l "metadata" with
  | none => .ok []
  | some (.jObj kvs) => .ok (jsonObjToGo kvs)
  | some _ => .error "field metadata is not an object"

/-- Decoding one answer from JSON. -/
def decodeAnswer (j : Json) : Except String Answer :=
  match j with
  | .jObj l =>
    match decodeUUIDField l "id" with
    | .error e => .error e
    | .ok id =>
      match decodeStrField l "answer" with
      | .error e => .error e
      | .ok stmt =>
        match decodeNextNodeField l with
        | .error e => .error e
        | .ok nxt =>
          match decodeStrField l "user_context" with
          | .error e => .error e
          | .ok uc =>
            match decodeMetadataField l with
            | .error e => .error e
            | .ok md => .ok ⟨id, stmt, nxt, none, uc, md⟩
  | _ => .error "answer is not an object"

/-- Elementwise decoding of the `answers` array (first error wins). -/
def decodeAnswers : List Json → Except String (List Answer)
  | [] => .ok []
  | j :: js =>
    match decodeAnswer j with
    | .error e => .error e
    | .ok a =>
      match decodeAnswers js with
      | .error e => .error e
      | .ok rest => .ok (a :: rest)

/-- Decoding one node from JSON. -/
def decodeNode (j : Json) : Except String Node :=
  match j with
  | .jObj l =>
    match decodeUUIDField l "id" with
    | .error e => .error e
    | .ok id =>
      match decodeStrField l "question" with
      | .error e => .error e
      | .ok q =>
        match
          (match jField l "answers" with
           | none => Except.ok ([] : List Json)
           | some (.jArr items) => Except.ok items
           | some _ => Except.error "field answers is not an array") with
        | .error e => .error e
        | .ok items =>
          match decodeAnswers items with
          | .error e => .error e
          | .ok answers => .ok ⟨id, q, answers⟩
  | _ => .error "node is not an object"

/-- Elementwise decoding of the `nodes` array (first error wins). -/
def decodeNodes : List Json → Except String (List Node)
  | [] => .ok []
  | j :: js =>
    match decodeNode j with
    | .error e => .error e
    | .ok n =>
      match decodeNodes js with
      | .error e => .error e
      | .ok rest => .ok (n :: rest)

/-- The parent back-references restored on load: every answer of the
node gets the containing node as its parent. -/
def withParentRefs (n : Node) : Node :=
  ⟨n.Id, n.Question, n.Answers.map (fun a =>
    ⟨a.Id, a.Statement, a.NextNode, some n.Id, a.UserContext, a.Metadata⟩)⟩

/-- `DAG.UnmarshalJSON` (as used on a freshly created graph): decode the
`dagJSON` wire shape, rebuild the id-keyed node map from the `nodes`
array (later array entries overwrite earlier ones with the same id) and
restore the parent pointers of every answer. -/
def unmarshalDAG (j : Json) : Except String DAG :=
  match j with
  | .jObj l =>
    match decodeUUIDField l "id" with
    | .error e => .error e
    | .ok id =>
      match decodeStrField l "title" with
      | .error e => .error e
      | .ok title =>
        match
          (match jField l "nodes" with
           | none => Except.ok ([] : List Json)
           | some (.jArr items) => Except.ok items
           | some _ => Except.error "field nodes is not an array") with
        | .error e => .error e
        | .ok items =>
          match decodeNodes items with
          | .error e => .error e
          | .ok nodes =>
            .ok ⟨id, title,
              nodes.foldl (fun acc n => ainsert n.Id (withParentRefs n) acc) []⟩
  | _ => .error "error unmarshalling DAG data"

/-! ### Specification-side notions used by the claims -/

/-- Processing one frontier entry at depth `dep`: skip it if already
reached, otherwise mark it, queue its unvisited `next_node` targets for
the next level, and raise the maximum level. -/
def roundAcc (d : DAG) (dep : Nat) (acc : List UUID × List UUID × Nat)
    (id : UUID) : List UUID × List UUID × Nat :=
  if id ∈ acc.1 then acc
  else
    (id :: acc.1,
      acc.2.1 ++ (childIds d id).filter (fun c => c ∉ id :: acc.1),
      if dep > acc.2.2 then dep else acc.2.2)

/-- One breadth-first level: process the frontier left to right, mark
every node not reached before at the current depth, and collect the next
level's frontier (the unvisited `next_node` targets). -/
def roundStep (d : DAG) (vis : List UUID) (front : List UUID) (dep : Nat)
    (maxD : Nat) : List UUID × List UUID × Nat :=
  front.foldl (roundAcc d dep) (vis, [], maxD)

/-- Breadth-first traversal by levels, tracking the maximum level at
which any node is first reached.  `none` on round-fuel exhaustion
(shown impossible for `roundsFuel`). -/
def specRoundsF (d : DAG) : Nat → List UUID → List UUID → Nat → Nat → Option Nat
  | _, _, [], _, maxD => some maxD
  | 0, _, _ :: _, _, _ => none
  | fuel + 1, vis, front, dep, maxD =>
    let r := roundStep d vis front dep maxD
    specRoundsF d fuel r.1 r.2.1 (dep + 1) r.2.2

/-- Round fuel that always suffices. -/
def roundsFuel (d : DAG) : Nat := (allIdsD d).length + 2

/-- The maximum level reached by a breadth-first traversal from `r`,
each node counted at the depth where it is first reached. -/
def specMaxDepth (d : DAG) (r : UUID) : Nat :=
  (specRoundsF d (roundsFuel d) [] [r] 0 0).getD 0

/-- The walk-path well-formedness predicate: starting at `cur`, each
path element is (by id) one of the current node's answers, only the last
element may be terminal, and the path ends at a terminal answer or at a
node without answers. -/
def chainFromB (d : DAG) : UUID → List Answer → Bool
  | cur, [] =>
    match d.GetNode cur with
    | some n => n.Answers.isEmpty
    | none => false
  | cur, a :: rest =>
    match d.GetNode cur with
    | none => false
    | some n =>
      !n.Answers.isEmpty && n.Answers.any (fun x => x.Id = a.Id) &&
        (match a.NextNode, rest with
         | none, [] => true
         | none, _ :: _ => false
         | some nxt, _ => chainFromB d nxt rest)

/-- Exactly one node is unreferenced by any answer's `next_node`, and it
is `r`. -/
def OneRootSpec (d : DAG) (r : UUID) : Prop :=
  r ∈ nodeKeys d ∧ ∀ k ∈ nodeKeys d, (k ∉ referencedNodeIds d ↔ k = r)

instance (d : DAG) (r : UUID) : Decidable (OneRootSpec d r) := by
  unfold OneRootSpec; infer_instance

/-- Every node is referenced by some answer: no root candidate. -/
def NoRootSpec (d : DAG) : Prop :=
  ∀ k ∈ nodeKeys d, k ∈ referencedNodeIds d

instance (d : DAG) : Decidable (NoRootSpec d) := by
  unfold NoRootSpec; infer_instance

/-- At least two distinct nodes are unreferenced by any answer. -/
def MultiRootSpec (d : DAG) : Prop :=
  ∃ a ∈ nodeKeys d, ∃ b ∈ nodeKeys d,
    a ≠ b ∧ a ∉ referencedNodeIds d ∧ b ∉ referencedNodeIds d

instance (d : DAG) : Decidable (MultiRootSpec d) := by
  unfold MultiRootSpec; infer_instance

/-- The self-loop at `n` is the only cycle of the graph. -/
def OnlyCycleAt (d : DAG) (n : UUID) : Prop :=
  ∀ x, Relation.TransGen (Edge d) x x → x = n

/-- A well-formed recorded cycle path: it starts and ends at the same
node, its consecutive entries are `next_node` edges of the graph, and it
repeats no node other than the closing one. -/
def GoodCycle (d : DAG) (cyc : List UUID) : Prop :=
  ∃ x s, cyc = x :: (s ++ [x]) ∧ List.Chain (Edge d) x (s ++ [x]) ∧ (x :: s).Nodup

/-- The DFS invariant for nodes that are visited but no longer on the
recursion stack: their edges only lead to such nodes, and no such node
lies on a cycle. -/
def DoneInv (d : DAG) (st : CycState) : Prop :=
  (∀ v, v ∈ st.visited → v ∉ st.inStack → ∀ w, Edge d v w →
    (w ∈ st.visited ∧ w ∉ st.inStack)) ∧
  (∀ v, v ∈ st.visited → v ∉ st.inStack → ¬ Relation.TransGen (Edge d) v v)

/-- The DFS invariant tying the explicit path parameter to the shared
state: the path lies on the stack, repeats no node, and follows edges. -/
def PathInv (d : DAG) (path : List UUID) (st : CycState) : Prop :=
  (∀ x ∈ path, x ∈ st.inStack) ∧ path.Nodup ∧ List.Chain' (Edge d) path

/-- Ids not yet visited, the measure showing `cycFuel` suffices. -/
def unvisitedCount (d : DAG) (st : CycState) : Nat :=
  ((allIdsD d).filter (fun x => x ∉ st.visited)).length

/-! ### Concrete graphs used as witnesses and counterexamples -/

/-- An answer with no user context and no metadata. -/
def mkAnswer (id : UUID) (stmt : String) (nxt : Option UUID) : Answer :=
  ⟨id, stmt, nxt, none, "", []⟩

/-- The four-node graph of the spec example: a root whose answers lead
to `A` (node 2) and to the leaf `B` (node 3), with `A` having one answer
leading to the leaf `C` (node 4). -/
def gChain : DAG :=
  ⟨100, "T",
    [(1, ⟨1, "Q1", [mkAnswer 10 "to A" (some 2), mkAnswer 11 "to B" (some 3)]⟩),
     (2, ⟨2, "Q2", [mkAnswer 12 "to C" (some 4)]⟩),
     (3, ⟨3, "Q3", []⟩),
     (4, ⟨4, "Q4", []⟩)]⟩

/-- A graph with a two-node cycle (`1 ↔ 2`) listed before a node `3`
that has an answer leading into the cycle and then a self-referencing
answer. -/
def gTwoCycleSelf : DAG :=
  ⟨101, "T",
    [(1, ⟨1, "Q1", [mkAnswer 20 "to 2" (some 2)]⟩),
     (2, ⟨2, "Q2", [mkAnswer 21 "to 1" (some 1)]⟩),
     (3, ⟨3, "Q3", [mkAnswer 22 "to 1" (some 1), mkAnswer 23 "self" (some 3)]⟩)]⟩

/-- A single node whose only answer references the node itself. -/
def gSelfLoop : DAG :=
  ⟨102, "T", [(1, ⟨1, "Q1", [mkAnswer 30 "self" (some 1)]⟩)]⟩

/-- A graph whose every node is referenced (two-node cycle). -/
def gNoRoot : DAG :=
  ⟨103, "T",
    [(1, ⟨1, "Q1", [mkAnswer 31 "to 2" (some 2)]⟩),
     (2, ⟨2, "Q2", [mkAnswer 32 "to 1" (some 1)]⟩)]⟩

/-- A graph with two root candidates. -/
def gTwoRoots : DAG :=
  ⟨104, "T",
    [(1, ⟨1, "Q1", []⟩),
     (2, ⟨2, "Q2", []⟩)]⟩

/-- A one-node graph carrying metadata of every shape. -/
def gMeta : DAG :=
  ⟨9, "M",
    [(1, ⟨1, "Q?",
      [⟨40, "yes", none, none, "notes",
        [("confidence", .vNum (7 / 10)), ("tags", .vStrArr ["a", "b"]),
         ("nested", .vObj [("k", .vNum 1)]), ("flag", .vBool true)]⟩]⟩),
     (2, ⟨2, "R?", []⟩)]⟩

/-- An acyclic one-node graph whose single answer is terminal. -/
def gLoopBait : DAG :=
  ⟨105, "T", [(1, ⟨1, "Q1", [mkAnswer 10 "stop" none]⟩)]⟩

/-- A strategy that returns an answer with the id of `gLoopBait`'s only
answer but a forged `next_node` pointing back at node `1`. -/
def forgeStrategy : Node → Except String Answer :=
  fun _ => .ok ⟨10, "forged", some 1, none, "", []⟩

/-- The always-take-the-first-answer strategy (the scripted choice of
the walk tests). -/
def headStrategy : Node → Except String Answer :=
  fun n => .ok (n.Answers.headD (mkAnswer 0 "" none))

/-- A stored graph with identity `5`. -/
def gStoredA : DAG := ⟨5, "stored A", []⟩

/-- A different graph with the same identity `5`. -/
def gStoredB : DAG := ⟨5, "stored B", []⟩

/-- A graph with the fresh identity `7`. -/
def gFresh : DAG := ⟨7, "fresh", []⟩

/-- What one JSON round trip does to an answer loaded inside the node
with id `parent`: identity, statement, next node and user context are
kept, the parent back-reference is restored and the metadata values come
back generically. -/
def roundTripAnswer (parent : UUID) (a : Answer) : Answer :=
  ⟨a.Id, a.Statement, a.NextNode, some parent, a.UserContext,
    genericizeObj a.Metadata⟩

/-- The image of one answer under decode-after-encode, before the
parent back-references are restored. -/
def decodedAnswer (a : Answer) : Answer :=
  ⟨a.Id, a.Statement, a.NextNode, none, a.UserContext, genericizeObj a.Metadata⟩

/-- The image of one node under decode-after-encode, before the parent
back-references are restored. -/
def decodedNode (n : Node) : Node :=
  ⟨n.Id, n.Question, n.Answers.map decodedAnswer⟩

mutual

/-- Decoding after encoding genericizes a metadata value. -/
def jsonRound_val : (v : GoVal) → jsonToGo (goToJson v) = genericizeVal v
  | .vNull => rfl
  | .vBool _ => rfl
  | .vNum _ => rfl
  | .vStr _ => rfl
  | .vStrArr l => by
    have h : ∀ m : List String,
        jsonListToGo (m.map (fun s => Json.jStr s)) = m.map (fun s => GoVal.vStr s) := by
      intro m
      induction m with
      | nil => rfl
      | cons s rest ih => simp [jsonListToGo, jsonToGo, ih]
    simp [goToJson, jsonToGo, genericizeVal, h]
  | .vArr l => by
    simp [goToJson, jsonToGo, genericizeVal, jsonRound_list l]
  | .vObj l => by
    simp [goToJson, jsonToGo, genericizeVal, jsonRound_obj l]

/-- Elementwise version of `jsonRound_val` for generic arrays. -/
def jsonRound_list : (l : List GoVal) →
    jsonListToGo (goListToJson l) = genericizeList l
  | [] => rfl
  | v :: vs => by
    simp [goListToJson, jsonListToGo, genericizeList, jsonRound_val v,
      jsonRound_list vs]

/-- Entrywise version of `jsonRound_val` for generic maps. -/
def jsonRound_obj : (l : List (String × GoVal)) →
    jsonObjToGo (goObjToJson l) = genericizeObj l
  | [] => rfl
  | (k, v) :: kvs => by
    simp [goObjToJson, jsonObjToGo, genericizeObj, jsonRound_val v,
      jsonRound_obj kvs]

end

/-! ## Theorems -/

/-! ### Association list facts -/

theorem alookup_aerase_self {α : Type} (k : UUID) (l : List (UUID × α)) :
    alookup (aerase k l) k = none := by
  induction l with
  | nil => rfl
  | cons p rest ih =>
    by_cases h : p.1 = k
    · simpa [aerase, h] using ih
    · simpa [aerase, alookup, h] using ih

theorem alookup_aerase_ne {α : Type} {k k' : UUID} (h : k' ≠ k)
    (l : List (UUID × α)) : alookup (aerase k l) k' = alookup l k' := by
  induction l with
  | nil => rfl
  | cons p rest ih =>
    by_cases hp : p.1 = k
    · have h1 : aerase k (p :: rest) = aerase k rest := by simp [aerase, hp]
      have hne : ¬ p.1 = k' := by
        rw [hp]; exact fun hk => h hk.symm
      rw [h1, ih]
      simp [alookup, hne]
    · have h1 : aerase k (p :: rest) = p :: aerase k rest := by simp [aerase, hp]
      rw [h1]
      by_cases hk : p.1 = k'
      · simp [alookup, hk]
      · simp [alookup, hk, ih]

theorem alookup_ainsert_self {α : Type} (k : UUID) (v : α) (l : List (UUID × α)) :
    alookup (ainsert k v l) k = some v := by
  simp [ainsert, alookup]

theorem alookup_ainsert_ne {α : Type} {k k' : UUID} (h : k' ≠ k) (v : α)
    (l : List (UUID × α)) : alookup (ainsert k v l) k' = alookup l k' := by
  have : ¬ k = k' := fun hk => h hk.symm
  simp [ainsert, alookup, this, alookup_aerase_ne h]

theorem aerase_of_key_not_mem {α : Type} {k : UUID} :
    ∀ {l : List (UUID × α)}, k ∉ l.map (fun p => p.1) → aerase k l = l := by
  intro l
  induction l with
  | nil => intro _; rfl
  | cons p rest ih =>
    intro h
    simp only [List.map_cons, List.mem_cons, not_or] at h
    have hne : p.1 ≠ k := fun hk => h.1 hk.symm
    have h1 : aerase k (p :: rest) = p :: aerase k rest := by simp [aerase, hne]
    rw [h1, ih h.2]

theorem mem_keys_of_alookup {α : Type} {l : List (UUID × α)} {k : UUID} {v : α}
    (h : alookup l k = some v) : k ∈ l.map (fun p => p.1) := by
  induction l with
  | nil => simp [alookup] at h
  | cons p rest ih =>
    by_cases hp : p.1 = k
    · simp [hp]
    · simp only [alookup, hp, if_false] at h
      simp [ih h]

/-! ### C1: hybrid write-through consistency -/

theorem fileUpdate_err_fst (fs : FileStore) (id : UUID)
    (f : DAG → Except String DAG) (io : Bool)
    (h : (fileUpdate fs id f io).2.isSome) : (fileUpdate fs id f io).1 = fs := by
  unfold fileUpdate
  unfold fileUpdate at h
  cases halk : alookup fs id with
  | none => simp [halk]
  | some existing =>
    cases hf : f existing with
    | error e => simp [halk, hf]
    | ok updated =>
      by_cases hid : updated.Id ≠ existing.Id
      · simp [halk, hf, hid]
      · cases io with
        | true => simp [halk, hf, hid]
        | false => simp [halk, hf, hid] at h

/-- C1: with write-through enabled, a File failure during `Create` rolls
the Memory insert back (the new identity is absent from Memory
afterwards), leaves the File tier untouched and returns an error; a File
failure during `Update` keeps the Memory mutation (Memory then holds the
transformed graph while the File tier is untouched) and returns an
error; a File failure during `Delete` likewise keeps the Memory deletion
and returns an error. -/
theorem C1_hybrid_write_through_policy :
    (∀ (mem : MemStore) (fs : FileStore) (g : DAG) (io : Bool),
      (fileCreate fs (some g) io).2.isSome →
        (hybridCreate true mem fs (some g) io).2.2.isSome ∧
        alookup (hybridCreate true mem fs (some g) io).1 g.Id = none ∧
        (hybridCreate true mem fs (some g) io).2.1 = fs) ∧
    (∀ (mem : MemStore) (fs : FileStore) (id : UUID)
      (f : DAG → Except String DAG) (io : Bool) (old new : DAG),
      alookup mem id = some old → f old = .ok new → new.Id = old.Id →
      (fileUpdate fs id f io).2.isSome →
        (hybridUpdate true mem fs id f io).2.2.isSome ∧
        alookup (hybridUpdate true mem fs id f io).1 id = some new ∧
        (hybridUpdate true mem fs id f io).2.1 = fs) ∧
    (∀ (mem : MemStore) (fs : FileStore) (id : UUID) (io : Bool) (old : DAG),
      alookup mem id = some old → (fileDelete fs id io).2.isSome →
        (hybridDelete true mem fs id io).2.2.isSome ∧
        alookup (hybridDelete true mem fs id io).1 id = none ∧
        (hybridDelete true mem fs id io).2.1 = fs) := by
  refine ⟨?_, ?_, ?_⟩
  · intro mem fs g io hfail
    unfold hybridCreate
    cases hfc : fileCreate fs (some g) io with
    | mk fs' e =>
      cases e with
      | none => rw [hfc] at hfail; simp at hfail
      | some err =>
        have hmem : alookup ((memDelete (memCreate mem (some g)).1 g.Id).1) g.Id = none := by
          have hins : alookup (memCreate mem (some g)).1 g.Id = some g := by
            simp [memCreate, alookup_ainsert_self]
          simp [memDelete, hins, alookup_aerase_self]
        simp [memCreate] at hmem
        simp [hfc, memCreate, hmem]
  · intro mem fs id f io old new hold hf hid hfail
    have hmu : memUpdate mem id f = (ainsert id new mem, none) := by
      simp [memUpdate, hold, hf, hid]
    unfold hybridUpdate
    rw [hmu]
    cases hfu : fileUpdate fs id f io with
    | mk fs' e =>
      cases e with
      | none => rw [hfu] at hfail; simp at hfail
      | some err =>
        have := fileUpdate_err_fst fs id f io (by rw [hfu]; simp)
        simp [alookup_ainsert_self]
  · intro mem fs id io old hold hfail
    have hmd : memDelete mem id = (aerase id mem, none) := by
      simp [memDelete, hold]
    unfold hybridDelete
    rw [hmd]
    cases hfd : fileDelete fs id io with
    | mk fs' e =>
      cases e with
      | none => rw [hfd] at hfail; simp at hfail
      | some err => simp [alookup_aerase_self]

/-- Witness for C1 at concrete stores: identity `5` already exists in
the file tier, so write-through `Create` of `gStoredB` fails and rolls
back; an injected I/O failure makes `Update`/`Delete` of `5` fail on the
file leg while the memory mutation stays. -/
theorem C1_hybrid_write_through_policy_witness :
    ((fileCreate [(5, gStoredA)] (some gStoredB) false).2.isSome ∧
      (hybridCreate true [] [(5, gStoredA)] (some gStoredB) false).2.2.isSome ∧
      alookup (hybridCreate true [] [(5, gStoredA)] (some gStoredB) false).1 5 = none) ∧
    ((hybridUpdate true [(5, gStoredA)] [(5, gStoredA)] 5
        (fun g => .ok ⟨g.Id, "renamed", g.Nodes⟩) true).2.2.isSome ∧
      alookup (hybridUpdate true [(5, gStoredA)] [(5, gStoredA)] 5
        (fun g => .ok ⟨g.Id, "renamed", g.Nodes⟩) true).1 5 = some ⟨5, "renamed", []⟩) ∧
    ((hybridDelete true [(5, gStoredA)] [(5, gStoredA)] 5 true).2.2.isSome ∧
      alookup (hybridDelete true [(5, gStoredA)] [(5, gStoredA)] 5 true).1 5 = none) := by
  refine ⟨⟨by rfl, ?_⟩, ⟨?_, ?_⟩, ⟨?_, ?_⟩⟩
  · have h := C1_hybrid_write_through_policy.1 [] [(5, gStoredA)] gStoredB false (by rfl)
    exact ⟨h.1, h.2.1⟩
  · exact (C1_hybrid_write_through_policy.2.1 [(5, gStoredA)] [(5, gStoredA)] 5
      (fun g => .ok ⟨g.Id, "renamed", g.Nodes⟩) true gStoredA ⟨5, "renamed", []⟩
      (by rfl) (by rfl) (by rfl) (by rfl)).1
  · exact (C1_hybrid_write_through_policy.2.1 [(5, gStoredA)] [(5, gStoredA)] 5
      (fun g => .ok ⟨g.Id, "renamed", g.Nodes⟩) true gStoredA ⟨5, "renamed", []⟩
      (by rfl) (by rfl) (by rfl) (by rfl)).2.1
  · exact (C1_hybrid_write_through_policy.2.2 [(5, gStoredA)] [(5, gStoredA)] 5 true
      gStoredA (by rfl) (by rfl)).1
  · exact (C1_hybrid_write_through_policy.2.2 [(5, gStoredA)] [(5, gStoredA)] 5 true
      gStoredA (by rfl) (by rfl)).2.1

/-! ### C2: Create and the already-exists contract -/

/-- C2 counterexample: the In-Memory repository's `Create` does not
check for an existing identity.  Creating `gStoredB` while identity `5`
already holds `gStoredA` returns *no* error and silently replaces the
previously stored graph, contradicting the claimed already-exists
failure for every repository implementation. -/
theorem C2_counterexample :
    memCreate [(5, gStoredA)] (some gStoredB) = ([(5, gStoredB)], none) ∧
    alookup (memCreate [(5, gStoredA)] (some gStoredB)).1 5 = some gStoredB ∧
    gStoredB ≠ gStoredA := by
  refine ⟨rfl, rfl, fun h => ?_⟩
  have := congrArg DAG.Title h
  exact absurd this (by decide)

/-- C2 amended: the File repository's `Create` refuses an existing
identity with an invalid-command already-exists error and leaves the
store unchanged, and succeeds on a fresh identity; the In-Memory
repository's `Create` performs no existence check: it always succeeds
and replaces any previously stored graph with the same identity. -/
theorem C2_create_contract :
    (∀ (fs : FileStore) (g : DAG) (io : Bool) (old : DAG),
      alookup fs g.Id = some old →
        fileCreate fs (some g) io =
          (fs, some ⟨.errInvalidCommand,
            "DAG with id " ++ uuidString g.Id ++ " already exists"⟩)) ∧
    (∀ (fs : FileStore) (g : DAG),
      alookup fs g.Id = none →
        fileCreate fs (some g) false = (ainsert g.Id g fs, none) ∧
        alookup (fileCreate fs (some g) false).1 g.Id = some g) ∧
    (∀ (m : MemStore) (g : DAG),
      memCreate m (some g) = (ainsert g.Id g m, none) ∧
      alookup (memCreate m (some g)).1 g.Id = some g) := by
  refine ⟨?_, ?_, ?_⟩
  · intro fs g io old h
    simp [fileCreate, h]
  · intro fs g h
    constructor
    · simp [fileCreate, h]
    · simp [fileCreate, h, alookup_ainsert_self]
  · intro m g
    exact ⟨rfl, by simp [memCreate, alookup_ainsert_self]⟩

/-- Witness for C2 at concrete stores. -/
theorem C2_create_contract_witness :
    fileCreate [(5, gStoredA)] (some gStoredB) false =
      ([(5, gStoredA)], some ⟨.errInvalidCommand,
        "DAG with id " ++ uuidString 5 ++ " already exists"⟩) ∧
    alookup (fileCreate [] (some gFresh) false).1 7 = some gFresh ∧
    alookup (memCreate [(5, gStoredA)] (some gStoredB)).1 5 = some gStoredB := by
  refine ⟨?_, ?_, ?_⟩
  · have h := C2_create_contract.1 [(5, gStoredA)] gStoredB false gStoredA (by rfl)
    simpa using h
  · have h := (C2_create_contract.2.1 [] gFresh (by rfl)).2
    simpa using h
  · exact (C2_create_contract.2.2 [(5, gStoredA)] gStoredB).2

/-! ### C9: JSON marshal/unmarshal round trip -/

theorem uuid_roundtrip (u : UUID) : uuidParse (uuidString u) = some u := by
  have h1 : ∀ n, (List.replicate n 'x').all (fun c => c = 'x') = true := by
    intro n
    induction n with
    | zero => rfl
    | succ m ih => simp [List.replicate, ih]
  have h2 : (String.mk ('u' :: List.replicate u 'x')).data
      = 'u' :: List.replicate u 'x' := rfl
  simp [uuidString, uuidParse, h2, h1]

theorem decodeAnswer_marshal (a : Answer) :
    decodeAnswer (marshalAnswer a) = .ok (decodedAnswer a) := by
  have hgen := jsonRound_obj a.Metadata
  rcases hnx : a.NextNode with _ | nxt <;>
    by_cases huc : a.UserContext = "" <;>
    by_cases hmd : a.Metadata.isEmpty
  all_goals
    first
    | (have hm : a.Metadata = [] := by
        cases hml : a.Metadata with
        | nil => rfl
        | cons x xs => rw [hml] at hmd; simp at hmd
       simp [marshalAnswer, decodeAnswer, decodeUUIDField, decodeStrField,
         decodeNextNodeField, decodeMetadataField, jField, uuid_roundtrip,
         huc, hmd, hnx, hm, decodedAnswer, genericizeObj])
    | simp [marshalAnswer, decodeAnswer, decodeUUIDField, decodeStrField,
        decodeNextNodeField, decodeMetadataField, jField, uuid_roundtrip,
        huc, hmd, hnx, hgen, decodedAnswer]

theorem decodeAnswers_marshal (l : List Answer) :
    decodeAnswers (l.map marshalAnswer) = .ok (l.map decodedAnswer) := by
  induction l with
  | nil => rfl
  | cons a rest ih => simp [decodeAnswers, decodeAnswer_marshal, ih]

theorem decodeNode_marshal (n : Node) :
    decodeNode (marshalNode n) = .ok (decodedNode n) := by
  simp [marshalNode, decodeNode, decodeUUIDField, decodeStrField, jField,
    uuid_roundtrip, decodeAnswers_marshal, decodedNode]

theorem decodeNodes_marshal (l : List Node) :
    decodeNodes (l.map marshalNode) = .ok (l.map decodedNode) := by
  induction l with
  | nil => rfl
  | cons n rest ih => simp [decodeNodes, decodeNode_marshal, ih]

theorem unmarshal_marshal (d : DAG) :
    unmarshalDAG (marshalDAG d) = .ok ⟨d.Id, d.Title,
      ((d.Nodes.map (fun kv => decodedNode kv.2)).foldl
        (fun acc n => ainsert n.Id (withParentRefs n) acc) [])⟩ := by
  have h2 : decodeNodes (d.Nodes.map (fun kv => marshalNode kv.2))
      = .ok (d.Nodes.map (fun kv => decodedNode kv.2)) := by
    simpa [List.map_map, Function.comp] using
      decodeNodes_marshal (d.Nodes.map (fun kv => kv.2))
  simp [marshalDAG, unmarshalDAG, decodeUUIDField, decodeStrField, jField,
    uuid_roundtrip, h2]

theorem foldl_ainsert_eq (w : Node → Node) :
    ∀ (ns : List Node) (acc : List (UUID × Node)),
      (∀ n ∈ ns, n.Id ∉ acc.map (fun p => p.1)) →
      (ns.map (fun n => n.Id)).Nodup →
      ns.foldl (fun a n => ainsert n.Id (w n) a) acc
        = (ns.reverse.map (fun n => (n.Id, w n))) ++ acc := by
  intro ns
  induction ns with
  | nil => intro acc _ _; rfl
  | cons n rest ih =>
    intro acc hfresh hnd
    have h1 : ainsert n.Id (w n) acc = (n.Id, w n) :: acc := by
      unfold ainsert
      rw [aerase_of_key_not_mem (hfresh n (List.mem_cons_self n rest))]
    rw [List.map_cons] at hnd
    have hnd' := List.nodup_cons.mp hnd
    show rest.foldl _ (ainsert n.Id (w n) acc) = _
    rw [h1, ih ((n.Id, w n) :: acc) ?fresh hnd'.2]
    · simp
    case fresh =>
      intro m hm
      simp only [List.map_cons, List.mem_cons, not_or]
      refine ⟨?_, hfresh m (List.mem_cons_of_mem _ hm)⟩
      intro he
      exact hnd'.1 (he ▸ List.mem_map_of_mem _ hm)

theorem alookup_map_nodes (w : Node → Node) :
    ∀ (ms : List Node), (ms.map (fun n => n.Id)).Nodup →
      ∀ n ∈ ms, alookup (ms.map (fun n => (n.Id, w n))) n.Id = some (w n) := by
  intro ms
  induction ms with
  | nil => intro _ n hn; cases hn
  | cons m rest ih =>
    intro hnd n hn
    rw [List.map_cons] at hnd
    have hnd' := List.nodup_cons.mp hnd
    rcases List.mem_cons.mp hn with rfl | hmem
    · simp [alookup]
    · by_cases he : m.Id = n.Id
      · exact absurd (he ▸ List.mem_map_of_mem _ hmem) hnd'.1
      · simpa [alookup, he] using ih hnd'.2 n hmem

/-- C9: for every graph satisfying the node-map invariant (each key is
its node's identity, keys unique), marshalling and unmarshalling yields
a graph with the same node count; every node comes back with the same
question, and every answer with the same statement, `next_node` and user
context, the parent back-reference restored, and its metadata values
sent through `genericizeVal`, which keeps every scalar exactly and turns
typed and nested containers into generic containers with the same
contents. -/
theorem C9_marshal_unmarshal_roundtrip (d : DAG)
    (hids : ∀ kv ∈ d.Nodes, kv.1 = kv.2.Id)
    (hnd : (nodeKeys d).Nodup) :
    ∃ d', unmarshalDAG (marshalDAG d) = .ok d' ∧
      d'.Nodes.length = d.Nodes.length ∧
      (∀ kv ∈ d.Nodes, ∃ n', alookup d'.Nodes kv.1 = some n' ∧
        n'.Question = kv.2.Question ∧
        n'.Answers = kv.2.Answers.map (roundTripAnswer kv.2.Id)) ∧
      (∀ s, genericizeVal (.vStr s) = .vStr s) ∧
      (∀ b, genericizeVal (.vBool b) = .vBool b) ∧
      (∀ q, genericizeVal (.vNum q) = .vNum q) ∧
      genericizeVal .vNull = .vNull ∧
      (∀ ss, genericizeVal (.vStrArr ss) = .vArr (ss.map (fun s => .vStr s))) := by
  have hidmap : (d.Nodes.map (fun kv => decodedNode kv.2)).map (fun n => n.Id)
      = nodeKeys d := by
    rw [List.map_map]
    unfold nodeKeys
    refine List.map_congr_left ?_
    intro kv hkv
    exact ((hids kv hkv).symm : (decodedNode kv.2).Id = kv.1)
  have hndn : ((d.Nodes.map (fun kv => decodedNode kv.2)).map
      (fun n => n.Id)).Nodup := by rw [hidmap]; exact hnd
  have hfold := foldl_ainsert_eq withParentRefs
    (d.Nodes.map (fun kv => decodedNode kv.2)) [] (by simp) hndn
  refine ⟨_, unmarshal_marshal d, ?_, ?_, fun _ => rfl, fun _ => rfl,
    fun _ => rfl, rfl, fun _ => rfl⟩
  · rw [hfold]
    simp
  · intro kv hkv
    have hmem : decodedNode kv.2 ∈
        (d.Nodes.map (fun kv => decodedNode kv.2)).reverse :=
      List.mem_reverse.mpr (List.mem_map_of_mem _ hkv)
    have hndr : (((d.Nodes.map (fun kv => decodedNode kv.2)).reverse).map
        (fun n => n.Id)).Nodup := by
      rw [List.map_reverse]
      exact List.nodup_reverse.mpr hndn
    have hlook := alookup_map_nodes withParentRefs
      (d.Nodes.map (fun kv => decodedNode kv.2)).reverse hndr
      (decodedNode kv.2) hmem
    refine ⟨withParentRefs (decodedNode kv.2), ?_, rfl, ?_⟩
    · rw [hfold, List.append_nil]
      have hk : kv.1 = (decodedNode kv.2).Id := hids kv hkv
      rw [hk]
      exact hlook
    · show (kv.2.Answers.map decodedAnswer).map _ = _
      rw [List.map_map]
      rfl

/-- Witness for C9 on `gMeta`, whose metadata holds a rational scalar, a
typed string slice, a nested map and a boolean. -/
theorem C9_marshal_unmarshal_roundtrip_witness :
    (∀ kv ∈ gMeta.Nodes, kv.1 = kv.2.Id) ∧ (nodeKeys gMeta).Nodup ∧
    (∃ d', unmarshalDAG (marshalDAG gMeta) = .ok d' ∧
      d'.Nodes.length = gMeta.Nodes.length ∧
      (∀ kv ∈ gMeta.Nodes, ∃ n', alookup d'.Nodes kv.1 = some n' ∧
        n'.Question = kv.2.Question ∧
        n'.Answers = kv.2.Answers.map (roundTripAnswer kv.2.Id)) ∧
      (∀ s, genericizeVal (.vStr s) = .vStr s) ∧
      (∀ b, genericizeVal (.vBool b) = .vBool b) ∧
      (∀ q, genericizeVal (.vNum q) = .vNum q) ∧
      genericizeVal .vNull = .vNull ∧
      (∀ ss, genericizeVal (.vStrArr ss) = .vArr (ss.map (fun s => .vStr s)))) := by
  refine ⟨by decide, by decide, ?_⟩
  obtain ⟨d', h⟩ := C9_marshal_unmarshal_roundtrip gMeta (by decide) (by decide)
  exact ⟨d', h⟩

/-! ### C3: cycle detection -/

theorem dropToFirst_spec {c : UUID} :
    ∀ {path : List UUID}, c ∈ path →
      ∃ pre s, path = pre ++ c :: s ∧ dropToFirst c path = c :: s := by
  intro path
  induction path with
  | nil => intro h; cases h
  | cons x xs ih =>
    intro h
    by_cases hx : x = c
    · subst hx
      exact ⟨[], xs, rfl, by simp [dropToFirst]⟩
    · have hmem : c ∈ xs := by
        rcases List.mem_cons.mp h with h1 | h1
        · exact absurd h1.symm hx
        · exact h1
      obtain ⟨pre, s, hsplit, hdrop⟩ := ih hmem
      exact ⟨x :: pre, s, by simp [hsplit], by simp [dropToFirst, hx, hdrop]⟩

theorem chain_append_transGen {d : DAG} :
    ∀ (s : List UUID) (x y : UUID), List.Chain (Edge d) x (s ++ [y]) →
      Relation.TransGen (Edge d) x y := by
  intro s
  induction s with
  | nil =>
    intro x y h
    simp [List.chain_cons] at h
    exact Relation.TransGen.single h
  | cons z zs ih =>
    intro x y h
    have h1 : Edge d x z ∧ List.Chain (Edge d) z (zs ++ [y]) := by
      simpa [List.chain_cons] using h
    exact Relation.TransGen.head h1.1 (ih z y h1.2)

theorem goodCycle_headLast {d : DAG} {cyc : List UUID} (h : GoodCycle d cyc) :
    cyc ≠ [] ∧ cyc.head? = cyc.getLast? := by
  obtain ⟨x, s, hc, _, _⟩ := h
  subst hc
  refine ⟨by simp, ?_⟩
  have h1 : (x :: (s ++ [x])) = (x :: s) ++ [x] := by simp
  rw [h1, List.getLast?_concat]
  simp

theorem goodCycle_cyclic {d : DAG} {cyc : List UUID} (h : GoodCycle d cyc) :
    Cyclic d := by
  obtain ⟨x, s, _, hchain, _⟩ := h
  exact ⟨x, chain_append_transGen s x x hchain⟩

theorem goodCycle_only {d : DAG} {cyc : List UUID} {n : UUID}
    (h : GoodCycle d cyc) (honly : OnlyCycleAt d n) : cyc = [n, n] := by
  obtain ⟨x, s, hc, hchain, hnd⟩ := h
  have hx : x = n := honly x (chain_append_transGen s x x hchain)
  have hs : s = [] := by
    cases hse : s with
    | nil => rfl
    | cons e es =>
      exfalso
      have hsplit : List.Chain (Edge d) x ([] ++ e :: (es ++ [x])) := by
        simpa [hse] using hchain
      have h1 := (List.chain_split).mp hsplit
      have hxe : Relation.TransGen (Edge d) x e :=
        chain_append_transGen [] x e (by simpa using h1.1)
      have hex : Relation.TransGen (Edge d) e x :=
        chain_append_transGen es e x h1.2
      have he : e = n := honly e (Relation.TransGen.trans hex hxe)
      have : x ∉ e :: es := by
        rw [hse] at hnd
        exact (List.nodup_cons.mp hnd).1
      exact this (by rw [he, hx]; exact List.mem_cons_self n es)
  subst hx hs
  simpa using hc

theorem recordCycle_good {d : DAG} {c : UUID} {path : List UUID}
    {cycles : List (List UUID)} (hmem : c ∈ path) (hnd : path.Nodup)
    (hchain : List.Chain' (Edge d) path)
    (hlast : ∀ lastE, path.getLast? = some lastE → Edge d lastE c) :
    recordCycle c path cycles = cycles ++ [dropToFirst c path ++ [c]] ∧
      GoodCycle d (dropToFirst c path ++ [c]) := by
  obtain ⟨pre, s, hsplit, hdrop⟩ := dropToFirst_spec hmem
  constructor
  · simp [recordCycle, hmem]
  · refine ⟨c, s, by simp [hdrop], ?_, ?_⟩
    · have hch : List.Chain' (Edge d) (c :: s) := by
        rw [hsplit] at hchain
        exact (List.chain'_append.mp hchain).2.1
      have hlast' : ∀ lastE, (c :: s).getLast? = some lastE → Edge d lastE c := by
        intro lastE hl
        refine hlast lastE ?_
        rw [hsplit, List.getLast?_append_of_ne_nil]
        · exact hl
        · simp
      have hcat : List.Chain' (Edge d) ((c :: s) ++ [c]) := by
        rw [List.chain'_append]
        refine ⟨hch, by simp, ?_⟩
        intro lx hlx ly hly
        simp at hly
        subst hly
        exact hlast' lx hlx
      have h2 : List.Chain' (Edge d) (c :: (s ++ [c])) := by simpa using hcat
      exact h2
    · rw [hsplit] at hnd
      exact (List.nodup_append.mp hnd).2.1

theorem dfsKids_visited_mono
    (f : UUID → List UUID → CycState → Option (Bool × CycState))
    (hf : ∀ c path st b st', f c path st = some (b, st') →
      st.visited ⊆ st'.visited) :
    ∀ (cs path : List UUID) (st : CycState) (b : Bool) (st' : CycState),
      dfsKids f cs path st = some (b, st') → st.visited ⊆ st'.visited := by
  intro cs
  induction cs with
  | nil =>
    intro path st b st' h
    simp [dfsKids] at h
    rw [← h.2]
    exact List.Subset.refl _
  | cons c cs ih =>
    intro path st b st' h
    rw [dfsKids] at h
    cases hf1 : f c path st with
    | none => rw [hf1] at h; simp at h
    | some r =>
      obtain ⟨b1, st2⟩ := r
      rw [hf1] at h
      cases b1 with
      | true =>
        simp at h
        rw [← h.2]
        exact hf c path st true st2 hf1
      | false =>
        simp at h
        exact (hf c path st false st2 hf1).trans (ih path st2 b st' h)

theorem dfsVisit_visited_mono (d : DAG) :
    ∀ (fuel : Nat) (c : UUID) (path : List UUID) (st : CycState) (b : Bool)
      (st' : CycState), dfsVisit d fuel c path st = some (b, st') →
      st.visited ⊆ st'.visited := by
  intro fuel
  induction fuel with
  | zero => intro c path st b st' h; simp [dfsVisit] at h
  | succ n ih =>
    intro c path st b st' h
    rw [dfsVisit] at h
    by_cases h1 : c ∈ st.inStack
    · rw [if_pos h1] at h
      simp at h
      rw [← h.2]
      exact fun x hx => hx
    · rw [if_neg h1] at h
      by_cases h2 : c ∈ st.visited
      · rw [if_pos h2] at h
        simp at h
        rw [← h.2]
        exact List.Subset.refl _
      · rw [if_neg h2] at h
        dsimp only at h
        cases hk : dfsKids (dfsVisit d n) (childIds d c) (path ++ [c])
            ⟨c :: st.visited, c :: st.inStack, st.cycles⟩ with
        | none => rw [hk] at h; simp at h
        | some r =>
          obtain ⟨b1, st2⟩ := r
          rw [hk] at h
          have hsub : st.visited ⊆ st2.visited := by
            have hmono := dfsKids_visited_mono (dfsVisit d n)
              (fun c p s b s' hh => ih c p s b s' hh)
              (childIds d c) (path ++ [c])
              ⟨c :: st.visited, c :: st.inStack, st.cycles⟩ b1 st2 hk
            exact fun x hx => hmono (List.mem_cons_of_mem _ hx)
          cases b1 with
          | true => simp at h; rw [← h.2]; exact hsub
          | false => simp at h; rw [← h.2]; exact hsub

theorem alookup_mem {α : Type} :
    ∀ {l : List (UUID × α)} {k : UUID} {v : α},
      alookup l k = some v → (k, v) ∈ l := by
  intro l
  induction l with
  | nil => intro k v h; simp [alookup] at h
  | cons p rest ih =>
    intro k v h
    by_cases hp : p.1 = k
    · rw [alookup, if_pos hp] at h
      have : p = (k, v) := by
        cases p
        simp at hp h
        simp [hp, h]
      simp [this]
    · rw [alookup, if_neg hp] at h
      exact List.mem_cons_of_mem _ (ih h)

theorem childIds_subset_allIds (d : DAG) (c : UUID) :
    ∀ x ∈ childIds d c, x ∈ allIdsD d := by
  intro x hx
  unfold childIds at hx
  cases hn : d.GetNode c with
  | none => rw [hn] at hx; cases hx
  | some node =>
    rw [hn] at hx
    have hmem : (c, node) ∈ d.Nodes := alookup_mem hn
    have hin : x ∈ referencedNodeIds d := by
      unfold referencedNodeIds
      rw [List.mem_flatten]
      exact ⟨node.Answers.filterMap (fun a => a.NextNode),
        List.mem_map_of_mem _ hmem, hx⟩
    unfold allIdsD
    rw [List.mem_dedup]
    exact List.mem_append_right _ hin

theorem nodeKeys_subset_allIds (d : DAG) :
    ∀ k ∈ nodeKeys d, k ∈ allIdsD d := by
  intro k hk
  unfold allIdsD
  rw [List.mem_dedup]
  exact List.mem_append_left _ hk

theorem filter_unvisited_mono (l : List UUID) {v1 v2 : List UUID}
    (hsub : v1 ⊆ v2) :
    (l.filter (fun x => x ∉ v2)).length ≤ (l.filter (fun x => x ∉ v1)).length := by
  have h1 : l.filter (fun x => x ∉ v2)
      = (l.filter (fun x => x ∉ v1)).filter (fun x => x ∉ v2) := by
    rw [List.filter_filter]
    refine (List.filter_congr ?_).symm
    intro a _
    by_cases ha : a ∈ v2
    · have : a ∈ v2 → False → True := fun _ _ => trivial
      simp [ha]
    · have hv1 : a ∉ v1 := fun hh => ha (hsub hh)
      simp [ha, hv1]
  rw [h1]
  exact (List.filter_sublist _).length_le

theorem filter_unvisited_lt (l : List UUID) (vis : List UUID) (c : UUID)
    (hc : c ∈ l) (hv : c ∉ vis) :
    (l.filter (fun x => x ∉ c :: vis)).length <
      (l.filter (fun x => x ∉ vis)).length := by
  have hsub : vis ⊆ c :: vis := fun x hx => List.mem_cons_of_mem _ hx
  have h1 : l.filter (fun x => x ∉ c :: vis)
      = (l.filter (fun x => x ∉ vis)).filter (fun x => x ∉ c :: vis) := by
    rw [List.filter_filter]
    refine (List.filter_congr ?_).symm
    intro a _
    by_cases ha : a ∈ c :: vis
    · have hav : a ∈ vis ∨ a = c := by
        rcases List.mem_cons.mp ha with h | h
        · exact Or.inr h
        · exact Or.inl h
      rcases hav with h | h
      · simp [ha, h]
      · simp [ha]
    · have hav : a ∉ vis := fun hh => ha (List.mem_cons_of_mem _ hh)
      simp [ha, hav]
  have hsl : List.Sublist (l.filter (fun x => x ∉ c :: vis))
      (l.filter (fun x => x ∉ vis)) := by
    rw [h1]
    exact List.filter_sublist _
  have hct : c ∈ l.filter (fun x => x ∉ vis) := by
    rw [List.mem_filter]
    simp [hc, hv]
  have hcs : c ∉ l.filter (fun x => x ∉ c :: vis) := by
    rw [List.mem_filter]
    simp
  have hle := hsl.length_le
  rcases Nat.lt_or_ge (l.filter (fun x => x ∉ c :: vis)).length
      (l.filter (fun x => x ∉ vis)).length with h | h
  · exact h
  · exfalso
    have heq := hsl.eq_of_length (Nat.le_antisymm hle h)
    rw [heq] at hcs
    exact hcs hct

theorem unvisitedCount_le (d : DAG) (st : CycState) :
    unvisitedCount d st ≤ (allIdsD d).length :=
  (List.filter_sublist _).length_le

theorem dfsKids_some (d : DAG) (fuel : Nat)
    (ih : ∀ (c : UUID) (path : List UUID) (st : CycState), c ∈ allIdsD d →
      unvisitedCount d st < fuel → dfsVisit d fuel c path st ≠ none) :
    ∀ (cs path : List UUID) (st : CycState), (∀ c ∈ cs, c ∈ allIdsD d) →
      unvisitedCount d st < fuel → dfsKids (dfsVisit d fuel) cs path st ≠ none := by
  intro cs
  induction cs with
  | nil => intro path st _ _; simp [dfsKids]
  | cons c cs ihk =>
    intro path st hcs hlt
    rw [dfsKids]
    cases hf1 : dfsVisit d fuel c path st with
    | none => exact absurd hf1 (ih c path st (hcs c (List.mem_cons_self c cs)) hlt)
    | some r =>
      obtain ⟨b1, st2⟩ := r
      cases b1 with
      | true => simp
      | false =>
        have hmono : st.visited ⊆ st2.visited :=
          dfsVisit_visited_mono d fuel c path st false st2 hf1
        have hlt2 : unvisitedCount d st2 < fuel :=
          lt_of_le_of_lt (filter_unvisited_mono _ hmono) hlt
        exact ihk path st2 (fun x hx => hcs x (List.mem_cons_of_mem _ hx)) hlt2

theorem dfsVisit_some (d : DAG) :
    ∀ (fuel : Nat) (c : UUID) (path : List UUID) (st : CycState),
      c ∈ allIdsD d → unvisitedCount d st < fuel →
      dfsVisit d fuel c path st ≠ none := by
  intro fuel
  induction fuel with
  | zero => intro c path st _ hlt; omega
  | succ n ih =>
    intro c path st hc hlt
    rw [dfsVisit]
    by_cases h1 : c ∈ st.inStack
    · simp [h1]
    · rw [if_neg h1]
      by_cases h2 : c ∈ st.visited
      · simp [h2]
      · rw [if_neg h2]
        dsimp only
        have hlt1 : unvisitedCount d ⟨c :: st.visited, c :: st.inStack, st.cycles⟩ < n := by
          have hstep := filter_unvisited_lt (allIdsD d) st.visited c hc h2
          have : unvisitedCount d ⟨c :: st.visited, c :: st.inStack, st.cycles⟩ <
              unvisitedCount d st := hstep
          omega
        have hkids := dfsKids_some d n ih (childIds d c) (path ++ [c])
          ⟨c :: st.visited, c :: st.inStack, st.cycles⟩
          (childIds_subset_allIds d c) hlt1
        cases hk : dfsKids (dfsVisit d n) (childIds d c) (path ++ [c])
            ⟨c :: st.visited, c :: st.inStack, st.cycles⟩ with
        | none => exact absurd hk hkids
        | some r =>
          obtain ⟨b1, st2⟩ := r
          cases b1 with
          | true => simp
          | false => simp

theorem cyclesLoop_some (d : DAG) :
    ∀ (ks : List UUID) (h : Bool) (st : CycState), (∀ k ∈ ks, k ∈ allIdsD d) →
      cyclesLoop d ks h st ≠ none := by
  intro ks
  induction ks with
  | nil => intro h st _; simp [cyclesLoop]
  | cons k ks ih =>
    intro h st hks
    rw [cyclesLoop]
    by_cases hv : k ∈ st.visited
    · rw [if_pos hv]
      exact ih h st (fun x hx => hks x (List.mem_cons_of_mem _ hx))
    · rw [if_neg hv]
      have hlt : unvisitedCount d st < cycFuel d := by
        have := unvisitedCount_le d st
        unfold cycFuel
        omega
      cases hd : dfsVisit d (cycFuel d) k [] st with
      | none =>
        exact absurd hd (dfsVisit_some d (cycFuel d) k [] st
          (hks k (List.mem_cons_self k ks)) hlt)
      | some r =>
        obtain ⟨b1, st2⟩ := r
        exact ih (h || b1) st2 (fun x hx => hks x (List.mem_cons_of_mem _ hx))

theorem cyclesLoop_run (d : DAG) :
    ∃ hc st, cyclesLoop d (nodeKeys d) false ⟨[], [], []⟩ = some (hc, st) ∧
      validateCyclesRes d = (hc, st.cycles) := by
  cases hrun : cyclesLoop d (nodeKeys d) false ⟨[], [], []⟩ with
  | none => exact absurd hrun (cyclesLoop_some d (nodeKeys d) false _
      (nodeKeys_subset_allIds d))
  | some r =>
    obtain ⟨hc, st⟩ := r
    exact ⟨hc, st, rfl, by simp [validateCyclesRes, hrun]⟩

theorem dfsKids_false_restore
    (f : UUID → List UUID → CycState → Option (Bool × CycState))
    (hf : ∀ c path st st', f c path st = some (false, st') →
      st'.inStack = st.inStack ∧ st'.cycles = st.cycles) :
    ∀ (cs path : List UUID) (st st' : CycState),
      dfsKids f cs path st = some (false, st') →
      st'.inStack = st.inStack ∧ st'.cycles = st.cycles := by
  intro cs
  induction cs with
  | nil =>
    intro path st st' h
    simp [dfsKids] at h
    rw [← h]
    exact ⟨rfl, rfl⟩
  | cons c cs ih =>
    intro path st st' h
    rw [dfsKids] at h
    cases hf1 : f c path st with
    | none => rw [hf1] at h; simp at h
    | some r =>
      obtain ⟨b1, st2⟩ := r
      rw [hf1] at h
      cases b1 with
      | true => simp at h
      | false =>
        simp at h
        have h2 := hf c path st st2 hf1
        have h3 := ih path st2 st' h
        exact ⟨h3.1.trans h2.1, h3.2.trans h2.2⟩

theorem dfsVisit_false_restore (d : DAG) :
    ∀ (fuel : Nat) (c : UUID) (path : List UUID) (st st' : CycState),
      dfsVisit d fuel c path st = some (false, st') →
      st'.inStack = st.inStack ∧ st'.cycles = st.cycles := by
  intro fuel
  induction fuel with
  | zero => intro c path st st' h; simp [dfsVisit] at h
  | succ n ih =>
    intro c path st st' h
    rw [dfsVisit] at h
    by_cases h1 : c ∈ st.inStack
    · rw [if_pos h1] at h; simp at h
    · rw [if_neg h1] at h
      by_cases h2 : c ∈ st.visited
      · rw [if_pos h2] at h
        simp at h
        rw [← h]
        exact ⟨rfl, rfl⟩
      · rw [if_neg h2] at h
        dsimp only at h
        cases hk : dfsKids (dfsVisit d n) (childIds d c) (path ++ [c])
            ⟨c :: st.visited, c :: st.inStack, st.cycles⟩ with
        | none => rw [hk] at h; simp at h
        | some r =>
          obtain ⟨b1, st2⟩ := r
          rw [hk] at h
          cases b1 with
          | true => simp at h
          | false =>
            simp at h
            have hres := dfsKids_false_restore (dfsVisit d n)
              (fun c p s s' hh => ih c p s s' hh) (childIds d c) (path ++ [c])
              ⟨c :: st.visited, c :: st.inStack, st.cycles⟩ st2 hk
            rw [← h]
            dsimp only
            constructor
            · rw [hres.1]
              exact List.erase_cons_head c st.inStack
            · exact hres.2

theorem dfsKids_good (d : DAG)
    (f : UUID → List UUID → CycState → Option (Bool × CycState))
    (hfr : ∀ c path st st', f c path st = some (false, st') →
      st'.inStack = st.inStack ∧ st'.cycles = st.cycles)
    (hfD : ∀ c path st b st', f c path st = some (b, st') → PathInv d path st →
      (∀ lastE, path.getLast? = some lastE → Edge d lastE c) →
      ∃ l, st'.cycles = st.cycles ++ l ∧ ∀ cyc ∈ l, GoodCycle d cyc) :
    ∀ (cs path : List UUID) (st : CycState) (b : Bool) (st' : CycState),
      dfsKids f cs path st = some (b, st') → PathInv d path st →
      (∀ c' ∈ cs, ∀ lastE, path.getLast? = some lastE → Edge d lastE c') →
      ∃ l, st'.cycles = st.cycles ++ l ∧ ∀ cyc ∈ l, GoodCycle d cyc := by
  intro cs
  induction cs with
  | nil =>
    intro path st b st' h _ _
    simp [dfsKids] at h
    exact ⟨[], by rw [← h.2]; simp, by simp⟩
  | cons c cs ih =>
    intro path st b st' h hinv hlast
    rw [dfsKids] at h
    cases hf1 : f c path st with
    | none => rw [hf1] at h; simp at h
    | some r =>
      obtain ⟨b1, st2⟩ := r
      rw [hf1] at h
      cases b1 with
      | true =>
        simp at h
        obtain ⟨l, hl, hg⟩ := hfD c path st true st2 hf1 hinv
          (hlast c (List.mem_cons_self c cs))
        exact ⟨l, by rw [← h.2]; exact hl, hg⟩
      | false =>
        simp at h
        have hres := hfr c path st st2 hf1
        have hinv2 : PathInv d path st2 := by
          refine ⟨?_, hinv.2.1, hinv.2.2⟩
          intro x hx
          rw [hres.1]
          exact hinv.1 x hx
        obtain ⟨l, hl, hg⟩ := ih path st2 b st' h hinv2
          (fun c' hc' => hlast c' (List.mem_cons_of_mem _ hc'))
        exact ⟨l, by rw [hl, hres.2], hg⟩

theorem dfsVisit_good (d : DAG) :
    ∀ (fuel : Nat) (c : UUID) (path : List UUID) (st : CycState) (b : Bool)
      (st' : CycState), dfsVisit d fuel c path st = some (b, st') →
      PathInv d path st →
      (∀ lastE, path.getLast? = some lastE → Edge d lastE c) →
      ∃ l, st'.cycles = st.cycles ++ l ∧ ∀ cyc ∈ l, GoodCycle d cyc := by
  intro fuel
  induction fuel with
  | zero => intro c path st b st' h _ _; simp [dfsVisit] at h
  | succ n ih =>
    intro c path st b st' h hinv hlast
    rw [dfsVisit] at h
    by_cases h1 : c ∈ st.inStack
    · rw [if_pos h1] at h
      simp at h
      by_cases hcp : c ∈ path
      · obtain ⟨hrec, hgood⟩ := recordCycle_good hcp hinv.2.1 hinv.2.2 hlast
        refine ⟨[dropToFirst c path ++ [c]], ?_, ?_⟩
        · rw [← h.2]
          exact hrec
        · intro cyc hcyc
          simp at hcyc
          rw [hcyc]
          exact hgood
      · refine ⟨[], ?_, by simp⟩
        rw [← h.2]
        simp [recordCycle, hcp]
    · rw [if_neg h1] at h
      by_cases h2 : c ∈ st.visited
      · rw [if_pos h2] at h
        simp at h
        exact ⟨[], by rw [← h.2]; simp, by simp⟩
      · rw [if_neg h2] at h
        dsimp only at h
        have hcnp : c ∉ path := fun hcp => h1 (hinv.1 c hcp)
        have hinv1 : PathInv d (path ++ [c])
            ⟨c :: st.visited, c :: st.inStack, st.cycles⟩ := by
          refine ⟨?_, ?_, ?_⟩
          · intro x hx
            rcases List.mem_append.mp hx with hx1 | hx1
            · exact List.mem_cons_of_mem _ (hinv.1 x hx1)
            · simp at hx1
              simp [hx1]
          · rw [List.nodup_append]
            refine ⟨hinv.2.1, by simp, ?_⟩
            intro a ha hac
            simp at hac
            rw [hac] at ha
            exact hcnp ha
          · rw [List.chain'_append]
            refine ⟨hinv.2.2, by simp, ?_⟩
            intro x hx y hy
            simp at hy
            subst hy
            exact hlast x hx
        have hlast1 : ∀ c' ∈ childIds d c, ∀ lastE,
            (path ++ [c]).getLast? = some lastE → Edge d lastE c' := by
          intro c' hc' lastE hl
          rw [List.getLast?_concat] at hl
          have : lastE = c := by injection hl with hl'; exact hl'.symm
          rw [this]
          exact hc'
        cases hk : dfsKids (dfsVisit d n) (childIds d c) (path ++ [c])
            ⟨c :: st.visited, c :: st.inStack, st.cycles⟩ with
        | none => rw [hk] at h; simp at h
        | some r =>
          obtain ⟨b1, st2⟩ := r
          rw [hk] at h
          have hkids := dfsKids_good d (dfsVisit d n)
            (fun c p s s' hh => dfsVisit_false_restore d n c p s s' hh)
            (fun c p s b s' hh hi hl => ih c p s b s' hh hi hl)
            (childIds d c) (path ++ [c])
            ⟨c :: st.visited, c :: st.inStack, st.cycles⟩ b1 st2 hk hinv1
            (fun c' hc' lastE hl => hlast1 c' hc' lastE hl)
          obtain ⟨l, hl, hg⟩ := hkids
          cases b1 with
          | true =>
            simp at h
            exact ⟨l, by rw [← h.2]; exact hl, hg⟩
          | false =>
            simp at h
            refine ⟨l, ?_, hg⟩
            rw [← h.2]
            exact hl

theorem dfsKids_growth
    (f : UUID → List UUID → CycState → Option (Bool × CycState))
    (hfr : ∀ c path st st', f c path st = some (false, st') →
      st'.inStack = st.inStack ∧ st'.cycles = st.cycles)
    (hfE : ∀ c path st st', f c path st = some (true, st') →
      (∀ x ∈ st.inStack, x ∈ path) → st.cycles.length < st'.cycles.length) :
    ∀ (cs path : List UUID) (st st' : CycState),
      dfsKids f cs path st = some (true, st') →
      (∀ x ∈ st.inStack, x ∈ path) → st.cycles.length < st'.cycles.length := by
  intro cs
  induction cs with
  | nil => intro path st st' h _; simp [dfsKids] at h
  | cons c cs ih =>
    intro path st st' h hclean
    rw [dfsKids] at h
    cases hf1 : f c path st with
    | none => rw [hf1] at h; simp at h
    | some r =>
      obtain ⟨b1, st2⟩ := r
      rw [hf1] at h
      cases b1 with
      | true =>
        simp at h
        rw [← h]
        exact hfE c path st st2 hf1 hclean
      | false =>
        simp at h
        have hres := hfr c path st st2 hf1
        have hclean2 : ∀ x ∈ st2.inStack, x ∈ path := by
          intro x hx
          rw [hres.1] at hx
          exact hclean x hx
        have := ih path st2 st' h hclean2
        rw [hres.2] at this
        exact this

theorem dfsVisit_growth (d : DAG) :
    ∀ (fuel : Nat) (c : UUID) (path : List UUID) (st st' : CycState),
      dfsVisit d fuel c path st = some (true, st') →
      (∀ x ∈ st.inStack, x ∈ path) → st.cycles.length < st'.cycles.length := by
  intro fuel
  induction fuel with
  | zero => intro c path st st' h _; simp [dfsVisit] at h
  | succ n ih =>
    intro c path st st' h hclean
    rw [dfsVisit] at h
    by_cases h1 : c ∈ st.inStack
    · rw [if_pos h1] at h
      simp at h
      rw [← h]
      have hcp : c ∈ path := hclean c h1
      simp [recordCycle, hcp]
    · rw [if_neg h1] at h
      by_cases h2 : c ∈ st.visited
      · rw [if_pos h2] at h
        simp at h
      · rw [if_neg h2] at h
        dsimp only at h
        cases hk : dfsKids (dfsVisit d n) (childIds d c) (path ++ [c])
            ⟨c :: st.visited, c :: st.inStack, st.cycles⟩ with
        | none => rw [hk] at h; simp at h
        | some r =>
          obtain ⟨b1, st2⟩ := r
          rw [hk] at h
          cases b1 with
          | false => simp at h
          | true =>
            simp at h
            rw [← h]
            refine dfsKids_growth (dfsVisit d n)
              (fun c p s s' hh => dfsVisit_false_restore d n c p s s' hh)
              (fun c p s s' hh hc => ih c p s s' hh hc)
              (childIds d c) (path ++ [c])
              ⟨c :: st.visited, c :: st.inStack, st.cycles⟩ st2 hk ?_
            intro x hx
            rcases List.mem_cons.mp hx with hx1 | hx1
            · simp [hx1]
            · exact List.mem_append_left _ (hclean x hx1)

theorem done_reach {d : DAG} {V S : List UUID}
    (hcl : ∀ v, v ∈ V → v ∉ S → ∀ w, Edge d v w → (w ∈ V ∧ w ∉ S)) :
    ∀ {w u : UUID}, (w ∈ V ∧ w ∉ S) → Relation.ReflTransGen (Edge d) w u →
      (u ∈ V ∧ u ∉ S) := by
  intro w u hw hr
  induction hr with
  | refl => exact hw
  | tail _ hedge ihh => exact hcl _ ihh.1 ihh.2 _ hedge

theorem dfsKids_done (d : DAG) (fuel : Nat)
    (ihm : ∀ (c : UUID) (path : List UUID) (st : CycState) (b : Bool)
      (st' : CycState), dfsVisit d fuel c path st = some (b, st') →
      st.visited ⊆ st'.visited)
    (ihr : ∀ (c : UUID) (path : List UUID) (st st' : CycState),
      dfsVisit d fuel c path st = some (false, st') →
      st'.inStack = st.inStack ∧ st'.cycles = st.cycles)
    (ihd : ∀ (c : UUID) (path : List UUID) (st st' : CycState),
      dfsVisit d fuel c path st = some (false, st') → DoneInv d st →
      DoneInv d st' ∧ (c ∈ st'.visited ∧ c ∉ st'.inStack)) :
    ∀ (cs path : List UUID) (st st' : CycState),
      dfsKids (dfsVisit d fuel) cs path st = some (false, st') → DoneInv d st →
      DoneInv d st' ∧ ∀ c ∈ cs, (c ∈ st'.visited ∧ c ∉ st'.inStack) := by
  intro cs
  induction cs with
  | nil =>
    intro path st st' h hdone
    simp [dfsKids] at h
    rw [← h]
    exact ⟨hdone, by simp⟩
  | cons c cs ih =>
    intro path st st' h hdone
    rw [dfsKids] at h
    cases hf1 : dfsVisit d fuel c path st with
    | none => rw [hf1] at h; simp at h
    | some r =>
      obtain ⟨b1, st2⟩ := r
      rw [hf1] at h
      cases b1 with
      | true => simp at h
      | false =>
        simp at h
        obtain ⟨hdone2, hcdone⟩ := ihd c path st st2 hf1 hdone
        obtain ⟨hdoneF, hrest⟩ := ih path st2 st' h hdone2
        have htail_r := dfsKids_false_restore (dfsVisit d fuel)
          (fun c p s s' hh => ihr c p s s' hh) cs path st2 st' h
        have htail_m := dfsKids_visited_mono (dfsVisit d fuel)
          (fun c p s b s' hh => ihm c p s b s' hh) cs path st2 false st' h
        refine ⟨hdoneF, ?_⟩
        intro x hx
        rcases List.mem_cons.mp hx with hx1 | hx1
        · subst hx1
          refine ⟨htail_m hcdone.1, ?_⟩
          rw [htail_r.1]
          exact hcdone.2
        · exact hrest x hx1

theorem dfsVisit_done (d : DAG) :
    ∀ (fuel : Nat) (c : UUID) (path : List UUID) (st st' : CycState),
      dfsVisit d fuel c path st = some (false, st') → DoneInv d st →
      DoneInv d st' ∧ (c ∈ st'.visited ∧ c ∉ st'.inStack) := by
  intro fuel
  induction fuel with
  | zero => intro c path st st' h _; simp [dfsVisit] at h
  | succ n ih =>
    intro c path st st' h hdone
    rw [dfsVisit] at h
    by_cases h1 : c ∈ st.inStack
    · rw [if_pos h1] at h; simp at h
    · rw [if_neg h1] at h
      by_cases h2 : c ∈ st.visited
      · rw [if_pos h2] at h
        simp at h
        rw [← h]
        exact ⟨hdone, h2, h1⟩
      · rw [if_neg h2] at h
        dsimp only at h
        have hdone1 : DoneInv d ⟨c :: st.visited, c :: st.inStack, st.cycles⟩ := by
          constructor
          · intro v hv hvs w hw
            have hv1 : v ≠ c := by
              intro he
              subst he
              exact hvs (List.mem_cons_self _ _)
            have hv2 : v ∈ st.visited := by
              rcases List.mem_cons.mp hv with hh | hh
              · exact absurd hh hv1
              · exact hh
            have hv3 : v ∉ st.inStack := fun hh => hvs (List.mem_cons_of_mem _ hh)
            obtain ⟨hw1, hw2⟩ := hdone.1 v hv2 hv3 w hw
            have hwc : w ≠ c := by
              intro he
              subst he
              exact h2 hw1
            refine ⟨List.mem_cons_of_mem _ hw1, ?_⟩
            intro hh
            rcases List.mem_cons.mp hh with hh1 | hh1
            · exact hwc hh1
            · exact hw2 hh1
          · intro v hv hvs
            have hv1 : v ≠ c := by
              intro he
              subst he
              exact hvs (List.mem_cons_self _ _)
            have hv2 : v ∈ st.visited := by
              rcases List.mem_cons.mp hv with hh | hh
              · exact absurd hh hv1
              · exact hh
            have hv3 : v ∉ st.inStack := fun hh => hvs (List.mem_cons_of_mem _ hh)
            exact hdone.2 v hv2 hv3
        cases hk : dfsKids (dfsVisit d n) (childIds d c) (path ++ [c])
            ⟨c :: st.visited, c :: st.inStack, st.cycles⟩ with
        | none => rw [hk] at h; simp at h
        | some r =>
          obtain ⟨b1, st2⟩ := r
          rw [hk] at h
          cases b1 with
          | true => simp at h
          | false =>
            simp at h
            obtain ⟨hdone2, hkids⟩ := dfsKids_done d n
              (fun c p s b s' hh => dfsVisit_visited_mono d n c p s b s' hh)
              (fun c p s s' hh => dfsVisit_false_restore d n c p s s' hh)
              (fun c p s s' hh hd => ih c p s s' hh hd)
              (childIds d c) (path ++ [c])
              ⟨c :: st.visited, c :: st.inStack, st.cycles⟩ st2 hk hdone1
            have hrestore := dfsKids_false_restore (dfsVisit d n)
              (fun c p s s' hh => dfsVisit_false_restore d n c p s s' hh)
              (childIds d c) (path ++ [c])
              ⟨c :: st.visited, c :: st.inStack, st.cycles⟩ st2 hk
            have hmono := dfsKids_visited_mono (dfsVisit d n)
              (fun c p s b s' hh => dfsVisit_visited_mono d n c p s b s' hh)
              (childIds d c) (path ++ [c])
              ⟨c :: st.visited, c :: st.inStack, st.cycles⟩ false st2 hk
            have hstack2 : st2.inStack = c :: st.inStack := hrestore.1
            subst h
            have hcvis : c ∈ st2.visited := hmono (List.mem_cons_self _ _)
            have hers : (st2.inStack.erase c) = st.inStack := by
              rw [hstack2]
              exact List.erase_cons_head c st.inStack
            have hchild : ∀ w, Edge d c w → (w ∈ st2.visited ∧ w ∉ st2.inStack) := by
              intro w hw
              exact hkids w hw
            constructor
            · constructor
              · intro v hv hvs w hw
                dsimp only at hv hvs ⊢
                rw [hers] at hvs
                by_cases hvc : v = c
                · subst hvc
                  obtain ⟨hw1, hw2⟩ := hchild w hw
                  refine ⟨hw1, ?_⟩
                  rw [hers]
                  intro hh
                  exact hw2 (by rw [hstack2]; exact List.mem_cons_of_mem _ hh)
                · have hvs2 : v ∉ st2.inStack := by
                    rw [hstack2]
                    intro hh
                    rcases List.mem_cons.mp hh with hh1 | hh1
                    · exact hvc hh1
                    · exact hvs hh1
                  obtain ⟨hw1, hw2⟩ := hdone2.1 v hv hvs2 w hw
                  refine ⟨hw1, ?_⟩
                  rw [hers]
                  intro hh
                  exact hw2 (by rw [hstack2]; exact List.mem_cons_of_mem _ hh)
              · intro v hv hvs
                dsimp only at hv hvs
                rw [hers] at hvs
                by_cases hvc : v = c
                · subst hvc
                  intro hcyc
                  have hreach : ∃ w, Edge d v w ∧
                      Relation.ReflTransGen (Edge d) w v :=
                    Relation.TransGen.head'_iff.mp hcyc
                  obtain ⟨w, hw1, hw2⟩ := hreach
                  have hwd := hchild w hw1
                  have hvd := done_reach hdone2.1 hwd hw2
                  rw [hstack2] at hvd
                  exact hvd.2 (List.mem_cons_self _ _)
                · have hvs2 : v ∉ st2.inStack := by
                    rw [hstack2]
                    intro hh
                    rcases List.mem_cons.mp hh with hh1 | hh1
                    · exact hvc hh1
                    · exact hvs hh1
                  exact hdone2.2 v hv hvs2
            · refine ⟨hcvis, ?_⟩
              dsimp only
              rw [hers]
              exact h1

theorem cyclesLoop_visited_mono (d : DAG) :
    ∀ (ks : List UUID) (h : Bool) (st : CycState) (hc : Bool) (stF : CycState),
      cyclesLoop d ks h st = some (hc, stF) → st.visited ⊆ stF.visited := by
  intro ks
  induction ks with
  | nil =>
    intro h st hc stF hrun
    simp [cyclesLoop] at hrun
    rw [← hrun.2]
    exact List.Subset.refl _
  | cons k ks ih =>
    intro h st hc stF hrun
    rw [cyclesLoop] at hrun
    by_cases hv : k ∈ st.visited
    · rw [if_pos hv] at hrun
      exact ih h st hc stF hrun
    · rw [if_neg hv] at hrun
      cases hd : dfsVisit d (cycFuel d) k [] st with
      | none => rw [hd] at hrun; simp at hrun
      | some r =>
        obtain ⟨b1, st2⟩ := r
        rw [hd] at hrun
        exact (dfsVisit_visited_mono d (cycFuel d) k [] st b1 st2 hd).trans
          (ih (h || b1) st2 hc stF hrun)

theorem cyclesLoop_true_mono (d : DAG) :
    ∀ (ks : List UUID) (st : CycState) (hc : Bool) (stF : CycState),
      cyclesLoop d ks true st = some (hc, stF) → hc = true := by
  intro ks
  induction ks with
  | nil =>
    intro st hc stF hrun
    simp [cyclesLoop] at hrun
    exact hrun.1
  | cons k ks ih =>
    intro st hc stF hrun
    rw [cyclesLoop] at hrun
    by_cases hv : k ∈ st.visited
    · rw [if_pos hv] at hrun
      exact ih st hc stF hrun
    · rw [if_neg hv] at hrun
      cases hd : dfsVisit d (cycFuel d) k [] st with
      | none => rw [hd] at hrun; simp at hrun
      | some r =>
        obtain ⟨b1, st2⟩ := r
        rw [hd] at hrun
        simpa using ih st2 hc stF hrun

theorem edge_src_mem {d : DAG} {a b : UUID} (h : Edge d a b) : a ∈ nodeKeys d := by
  unfold Edge childIds at h
  cases hn : d.GetNode a with
  | none => rw [hn] at h; simp at h
  | some n => exact mem_keys_of_alookup hn

theorem cyclesLoop_inv (d : DAG) :
    ∀ (ks : List UUID) (h : Bool) (st : CycState) (hc : Bool) (stF : CycState),
      cyclesLoop d ks h st = some (hc, stF) →
      (h = false → st.inStack = [] ∧ DoneInv d st) →
      (∀ cyc ∈ st.cycles, GoodCycle d cyc) →
      (h = true → st.cycles ≠ []) →
      (∀ cyc ∈ stF.cycles, GoodCycle d cyc) ∧
      (hc = true → stF.cycles ≠ []) ∧
      (hc = false → stF.inStack = [] ∧ DoneInv d stF ∧ ∀ k ∈ ks, k ∈ stF.visited) := by
  intro ks
  induction ks with
  | nil =>
    intro h st hc stF hrun hfa hgood htrue
    simp [cyclesLoop] at hrun
    obtain ⟨h1, h2⟩ := hrun
    subst h1
    subst h2
    refine ⟨hgood, htrue, ?_⟩
    intro hcf
    exact ⟨(hfa hcf).1, (hfa hcf).2, by simp⟩
  | cons k ks ih =>
    intro h st hc stF hrun hfa hgood htrue
    rw [cyclesLoop] at hrun
    by_cases hv : k ∈ st.visited
    · rw [if_pos hv] at hrun
      obtain ⟨hg, ht, hf⟩ := ih h st hc stF hrun hfa hgood htrue
      refine ⟨hg, ht, ?_⟩
      intro hcf
      obtain ⟨hs, hd, hk⟩ := hf hcf
      refine ⟨hs, hd, ?_⟩
      intro x hx
      rcases List.mem_cons.mp hx with hx1 | hx1
      · subst hx1
        exact cyclesLoop_visited_mono d ks h st hc stF hrun hv
      · exact hk x hx1
    · rw [if_neg hv] at hrun
      cases hd : dfsVisit d (cycFuel d) k [] st with
      | none => rw [hd] at hrun; simp at hrun
      | some r =>
        obtain ⟨b1, st2⟩ := r
        rw [hd] at hrun
        dsimp only at hrun
        have hpinv : PathInv d [] st := ⟨by simp, by simp, by simp⟩
        obtain ⟨l, hl1, hl2⟩ := dfsVisit_good d (cycFuel d) k [] st b1 st2 hd
          hpinv (by intro lastE hle; simp at hle)
        have hgood2 : ∀ cyc ∈ st2.cycles, GoodCycle d cyc := by
          intro cyc hcy
          rw [hl1] at hcy
          rcases List.mem_append.mp hcy with hcy1 | hcy1
          · exact hgood cyc hcy1
          · exact hl2 cyc hcy1
        cases b1 with
        | false =>
          have hh : (h || false) = h := by simp
          rw [hh] at hrun
          have hfa2 : h = false → st2.inStack = [] ∧ DoneInv d st2 := by
            intro he
            obtain ⟨hs0, hd0⟩ := hfa he
            have hres := dfsVisit_false_restore d (cycFuel d) k [] st st2 hd
            obtain ⟨hd2, _⟩ := dfsVisit_done d (cycFuel d) k [] st st2 hd hd0
            exact ⟨by rw [hres.1, hs0], hd2⟩
          have htrue2 : h = true → st2.cycles ≠ [] := by
            intro he
            rw [hl1]
            intro hnil
            exact htrue he (List.append_eq_nil.mp hnil).1
          obtain ⟨hg, ht, hf⟩ := ih h st2 hc stF hrun hfa2 hgood2 htrue2
          refine ⟨hg, ht, ?_⟩
          intro hcf
          obtain ⟨hs, hdF, hk⟩ := hf hcf
          refine ⟨hs, hdF, ?_⟩
          intro x hx
          rcases List.mem_cons.mp hx with hx1 | hx1
          · subst hx1
            have hh2 : h = false := by
              cases hhe : h with
              | false => rfl
              | true =>
                exfalso
                rw [hhe] at hrun
                rw [cyclesLoop_true_mono d ks st2 hc stF hrun] at hcf
                exact absurd hcf (by simp)
            obtain ⟨_, hkd⟩ := dfsVisit_done d (cycFuel d) x [] st st2 hd
              (hfa hh2).2
            exact cyclesLoop_visited_mono d ks h st2 hc stF hrun hkd.1
          · exact hk x hx1
        | true =>
          have hh : (h || true) = true := by simp
          rw [hh] at hrun
          have hcT : hc = true := cyclesLoop_true_mono d ks st2 hc stF hrun
          have htrue2 : st2.cycles ≠ [] := by
            cases hhe : h with
            | true =>
              rw [hl1]
              intro hnil
              exact htrue hhe (List.append_eq_nil.mp hnil).1
            | false =>
              obtain ⟨hs0, _⟩ := hfa hhe
              have hgr := dfsVisit_growth d (cycFuel d) k [] st st2 hd
                (by intro x hx; rw [hs0] at hx; exact absurd hx (List.not_mem_nil x))
              intro hnil
              rw [hnil] at hgr
              simp at hgr
          obtain ⟨hg, ht, _⟩ := ih true st2 hc stF hrun
            (by intro he; exact absurd he (by simp)) hgood2 (fun _ => htrue2)
          refine ⟨hg, ht, ?_⟩
          intro hcf
          rw [hcT] at hcf
          exact absurd hcf (by simp)

theorem validateCycles_spec (d : DAG) :
    (∀ cyc ∈ rawCyclePaths d, GoodCycle d cyc) ∧
    ((validateCyclesRes d).1 = true → rawCyclePaths d ≠ []) ∧
    ((validateCyclesRes d).1 = false → ¬ Cyclic d) := by
  obtain ⟨hc, st, hrun, heq⟩ := cyclesLoop_run d
  have hdinv : DoneInv d ⟨[], [], []⟩ := by
    constructor
    · intro v hv
      exact absurd hv (List.not_mem_nil v)
    · intro v hv
      exact absurd hv (List.not_mem_nil v)
  obtain ⟨hg, ht, hf⟩ := cyclesLoop_inv d (nodeKeys d) false ⟨[], [], []⟩ hc st hrun
    (fun _ => ⟨rfl, hdinv⟩)
    (by intro cyc hcy; exact absurd hcy (List.not_mem_nil cyc))
    (by intro he; exact absurd he (by simp))
  have hraw : rawCyclePaths d = st.cycles := by
    rw [rawCyclePaths, heq]
  have hflag : (validateCyclesRes d).1 = hc := by rw [heq]
  refine ⟨by rw [hraw]; exact hg, ?_, ?_⟩
  · intro h1
    rw [hraw]
    exact ht (hflag ▸ h1)
  · intro h1 hcyc
    obtain ⟨hs, hdF, hk⟩ := hf (hflag ▸ h1)
    obtain ⟨x, hx⟩ := hcyc
    obtain ⟨w, hw, _⟩ := Relation.TransGen.head'_iff.mp hx
    have hxm : x ∈ nodeKeys d := edge_src_mem hw
    have hxv : x ∈ st.visited := hk x hxm
    have hxs : x ∉ st.inStack := by
      rw [hs]
      exact List.not_mem_nil x
    exact hdF.2 x hxv hxs hx

theorem gSelfLoop_edge {a b : UUID} (h : Edge gSelfLoop a b) : a = 1 ∧ b = 1 := by
  rw [Edge] at h
  by_cases ha : (1 : UUID) = a
  · refine ⟨ha.symm, ?_⟩
    rw [← ha] at h
    have hch : childIds gSelfLoop 1 = [1] := rfl
    rw [hch] at h
    simpa using h
  · have hg : DAG.GetNode gSelfLoop a = none := by
      simp only [DAG.GetNode, gSelfLoop, alookup]
      rw [if_neg ha]
    rw [childIds, hg] at h
    simp at h

theorem gSelfLoop_only : OnlyCycleAt gSelfLoop 1 := by
  intro x hx
  obtain ⟨w, hw, _⟩ := Relation.TransGen.head'_iff.mp hx
  exact (gSelfLoop_edge hw).1

/-- **C3.** Cycle detection (amended): on any cyclic graph `ValidateDAG`
reports `HasCycles = true` together with at least one recorded cycle path
whose first and last entries are the same node id; a self-referencing
answer forces `HasCycles = true`, and when that self-loop is the only
cycle of the graph it is reported as the one-edge path `[n, n]` (with
other cycles present, the DFS may report a different cycle instead). -/
theorem C3_cycle_detection (d : DAG) :
    (Cyclic d →
      ((ValidateDAG (some d)).Statistics.HasCycles = true ∧
        ∃ p ∈ rawCyclePaths d, p ≠ [] ∧ p.head? = p.getLast?)) ∧
    (∀ n, Edge d n n →
      ((ValidateDAG (some d)).Statistics.HasCycles = true ∧
        (OnlyCycleAt d n → [n, n] ∈ rawCyclePaths d))) := by
  obtain ⟨hg, ht, hsound⟩ := validateCycles_spec d
  have hhas : (ValidateDAG (some d)).Statistics.HasCycles =
      (validateCyclesRes d).1 := rfl
  have hmain : Cyclic d →
      (ValidateDAG (some d)).Statistics.HasCycles = true ∧
      ∃ p ∈ rawCyclePaths d, p ≠ [] ∧ p.head? = p.getLast? := by
    intro hcyc
    have hflag : (validateCyclesRes d).1 = true := by
      cases hfl : (validateCyclesRes d).1 with
      | true => rfl
      | false => exact absurd hcyc (hsound hfl)
    refine ⟨by rw [hhas, hflag], ?_⟩
    have hne := ht hflag
    cases hps : rawCyclePaths d with
    | nil => exact absurd hps hne
    | cons p ps =>
      have hpm : p ∈ rawCyclePaths d := by
        rw [hps]
        exact List.mem_cons_self p ps
      obtain ⟨hne2, hhl⟩ := goodCycle_headLast (hg p hpm)
      exact ⟨p, List.mem_cons_self p ps, hne2, hhl⟩
  refine ⟨hmain, ?_⟩
  intro n hn
  have hcyc : Cyclic d := ⟨n, Relation.TransGen.single hn⟩
  obtain ⟨hflag2, hex⟩ := hmain hcyc
  refine ⟨hflag2, ?_⟩
  intro honly
  obtain ⟨p, hpm, _, _⟩ := hex
  have hpe := goodCycle_only (hg p hpm) honly
  rw [← hpe]
  exact hpm

/-- C3 counterexample: node 3 of `gTwoCycleSelf` carries a
self-referencing answer, yet the validator reports only the two-node
cycle `[1, 2, 1]` — the claimed one-edge cycle `[3, 3]` is never
reported, because the DFS abort that detects the 1-2 cycle leaves node 2
permanently on the recursion stack. -/
theorem C3_counterexample :
    Edge gTwoCycleSelf 3 3 ∧ rawCyclePaths gTwoCycleSelf = [[1, 2, 1]] :=
  ⟨by decide, by decide⟩

theorem C3_cycle_detection_witness :
    ((ValidateDAG (some gSelfLoop)).Statistics.HasCycles = true ∧
      ∃ p ∈ rawCyclePaths gSelfLoop, p ≠ [] ∧ p.head? = p.getLast?) ∧
    [1, 1] ∈ rawCyclePaths gSelfLoop :=
  ⟨(C3_cycle_detection gSelfLoop).1
      ⟨1, Relation.TransGen.single (show Edge gSelfLoop 1 1 by decide)⟩,
   ((C3_cycle_detection gSelfLoop).2 1 (by decide)).2 gSelfLoop_only⟩

/-! ### C4: root detection -/

theorem mem_rootIds (d : DAG) (k : UUID) :
    k ∈ rootIds d ↔ (k ∈ nodeKeys d ∧ k ∉ referencedNodeIds d) := by
  simp [rootIds, List.mem_filter]

theorem list_eq_singleton {l : List UUID} {r : UUID} (hnd : l.Nodup)
    (hmem : r ∈ l) (hall : ∀ x ∈ l, x = r) : l = [r] := by
  cases l with
  | nil => cases hmem
  | cons x xs =>
    have hx : x = r := hall x (List.mem_cons_self x xs)
    have hnil : xs = [] := by
      cases xs with
      | nil => rfl
      | cons y ys =>
        have hy : y = r := hall y (List.mem_cons_of_mem x (List.mem_cons_self y ys))
        have hxy : x ∉ y :: ys := (List.nodup_cons.mp hnd).1
        rw [hx] at hxy
        rw [hy] at hxy
        exact absurd (List.mem_cons_self r ys) hxy
    rw [hnil, hx]

theorem rootIds_of_oneRoot {d : DAG} {r : UUID} (hnd : (nodeKeys d).Nodup)
    (h : OneRootSpec d r) : rootIds d = [r] := by
  refine list_eq_singleton (hnd.filter _) ?_ ?_
  · exact (mem_rootIds d r).mpr ⟨h.1, (h.2 r h.1).mpr rfl⟩
  · intro x hx
    have := (mem_rootIds d x).mp hx
    exact (h.2 x this.1).mp this.2

theorem rootIds_nil_of_noRoot {d : DAG} (h : NoRootSpec d) : rootIds d = [] := by
  unfold rootIds
  rw [List.filter_eq_nil_iff]
  intro k hk
  simp [h k hk]

theorem rootIds_long_of_multi {d : DAG}
    (h : MultiRootSpec d) : 1 < (rootIds d).length := by
  obtain ⟨a, ha, b, hb, hne, hra, hrb⟩ := h
  have hma : a ∈ rootIds d := (mem_rootIds d a).mpr ⟨ha, hra⟩
  have hmb : b ∈ rootIds d := (mem_rootIds d b).mpr ⟨hb, hrb⟩
  cases hl : rootIds d with
  | nil => rw [hl] at hma; cases hma
  | cons x xs =>
    cases hxs : xs with
    | nil =>
      rw [hl, hxs] at hma hmb
      simp at hma hmb
      exact absurd (hma.trans hmb.symm) hne
    | cons y ys => simp [hxs]

/-- C4: with unique node-map keys, a graph whose unreferenced-node set
is exactly `{r}` is reported with `RootNodes = 1` and `r` among the
root-id list; a graph whose every node is referenced gets a
`DAG_NO_ROOT` error; a graph with two distinct unreferenced nodes gets a
`DAG_MULTIPLE_ROOTS` error whose message lists all candidate ids, and
the statistics list exactly the candidate ids (the keys unreferenced by
any answer). -/
theorem C4_root_detection (d : DAG) (hnd : (nodeKeys d).Nodup) :
    (∀ r, OneRootSpec d r →
      (ValidateDAG (some d)).Statistics.RootNodes = 1 ∧
      uuidString r ∈ (ValidateDAG (some d)).Statistics.RootNodeIDs) ∧
    (NoRootSpec d →
      ∃ e ∈ (ValidateDAG (some d)).Errors, e.Code = "DAG_NO_ROOT") ∧
    (MultiRootSpec d →
      ∃ e ∈ (ValidateDAG (some d)).Errors, e.Code = "DAG_MULTIPLE_ROOTS" ∧
        e.Message = multipleRootsMsg (rootIds d)) ∧
    (∀ k, k ∈ rootIds d ↔ (k ∈ nodeKeys d ∧ k ∉ referencedNodeIds d)) ∧
    (ValidateDAG (some d)).Statistics.RootNodeIDs = (rootIds d).map uuidString := by
  refine ⟨?_, ?_, ?_, mem_rootIds d, ?_⟩
  · intro r h
    have hr := rootIds_of_oneRoot hnd h
    constructor
    · simp [ValidateDAG, buildStatistics, hr]
    · simp [ValidateDAG, buildStatistics, hr]
  · intro h
    have h0 := rootIds_nil_of_noRoot h
    refine ⟨⟨"DAG_NO_ROOT",
      "DAG has no root node - this indicates a circular reference",
      "", "", "error"⟩, ?_, rfl⟩
    simp [ValidateDAG, rootErrors, h0]
  · intro h
    have h1 := rootIds_long_of_multi h
    refine ⟨⟨"DAG_MULTIPLE_ROOTS", multipleRootsMsg (rootIds d),
      "", "", "error"⟩, ?_, rfl, rfl⟩
    have hz : ¬ (rootIds d).length = 0 := by omega
    simp [ValidateDAG, rootErrors, hz, h1]
  · simp [ValidateDAG, buildStatistics]

/-- Witness for C4: the example graph has the single root `1`; `gNoRoot`
has none; `gTwoRoots` has two. -/
theorem C4_root_detection_witness :
    (OneRootSpec gChain 1 ∧
      (ValidateDAG (some gChain)).Statistics.RootNodes = 1 ∧
      uuidString 1 ∈ (ValidateDAG (some gChain)).Statistics.RootNodeIDs) ∧
    (NoRootSpec gNoRoot ∧
      ∃ e ∈ (ValidateDAG (some gNoRoot)).Errors, e.Code = "DAG_NO_ROOT") ∧
    (MultiRootSpec gTwoRoots ∧
      ∃ e ∈ (ValidateDAG (some gTwoRoots)).Errors,
        e.Code = "DAG_MULTIPLE_ROOTS" ∧
        e.Message = multipleRootsMsg (rootIds gTwoRoots)) := by
  refine ⟨⟨by decide, ?_⟩, ⟨by decide, ?_⟩, ⟨by decide, ?_⟩⟩
  · exact (C4_root_detection gChain (by decide)).1 1 (by decide)
  · exact (C4_root_detection gNoRoot (by decide)).2.1 (by decide)
  · exact (C4_root_detection gTwoRoots (by decide)).2.2.1 (by decide)

/-! ### C6: the worked statistics example -/

/-- C6 counterexample: the example graph (root with answers to `A` and
to the leaf `B`, and `A` with one answer to the leaf `C`) has four
nodes, so validation reports `TotalNodes = 4`, not the claimed `3`. -/
theorem C6_counterexample :
    (ValidateDAG (some gChain)).Statistics.TotalNodes = 4 ∧
    ¬ (ValidateDAG (some gChain)).Statistics.TotalNodes = 3 := by
  exact ⟨rfl, by decide⟩

/-- C6 amended: on the example graph, validation reports
`TotalNodes = 4`, `RootNodes = 1`, `LeafNodes = 2`, `MaxDepth = 2` and
`HasCycles = false`. -/
theorem C6_example_statistics :
    (ValidateDAG (some gChain)).Statistics.TotalNodes = 4 ∧
    (ValidateDAG (some gChain)).Statistics.RootNodes = 1 ∧
    (ValidateDAG (some gChain)).Statistics.LeafNodes = 2 ∧
    (ValidateDAG (some gChain)).Statistics.MaxDepth = 2 ∧
    (ValidateDAG (some gChain)).Statistics.HasCycles = false := by
  refine ⟨rfl, rfl, rfl, by decide, rfl⟩

/-! ### C7: strategy answers foreign to the current node -/

/-- C7: whenever the start node exists and has answers, and the strategy
returns an answer whose id does not occur among that node's own answers,
`Walk` stops immediately with the `invalidAnswer` error, carrying the
path accumulated so far (empty at the first step). -/
theorem C7_walk_rejects_foreign_answer (d : DAG) (start : UUID) (node : Node)
    (fn : Node → Except String Answer) (sel : Answer)
    (h1 : d.GetNode start = some node) (h2 : node.Answers ≠ [])
    (h3 : fn node = .ok sel) (h4 : ∀ a ∈ node.Answers, a.Id ≠ sel.Id) :
    DAG.Walk d start fn = some ([], some (.invalidAnswer sel.Id start)) := by
  unfold DAG.Walk
  show walkF d fn (d.Nodes.length + 1) start [] = _
  have hlen : ¬ node.Answers.length = 0 := by
    intro h; exact h2 (List.length_eq_zero.mp h)
  have hany : node.Answers.any (fun a => a.Id = sel.Id) = false := by
    rw [List.any_eq_false]
    intro a ha
    simpa using h4 a ha
  simp [walkF, h1, h3, hlen, hany]

/-- Witness for C7: on the example graph, a strategy answering with the
foreign id `99` makes the walk from the root fail. -/
theorem C7_walk_rejects_foreign_answer_witness :
    DAG.Walk gChain 1 (fun _ => .ok (mkAnswer 99 "bogus" none)) =
      some ([], some (.invalidAnswer 99 1)) := by
  exact C7_walk_rejects_foreign_answer gChain 1
    ⟨1, "Q1", [mkAnswer 10 "to A" (some 2), mkAnswer 11 "to B" (some 3)]⟩
    (fun _ => .ok (mkAnswer 99 "bogus" none)) (mkAnswer 99 "bogus" none)
    rfl (by simp) rfl (by decide)

/-! ### C10: successful walks produce well-formed chains -/

theorem walkF_chain (d : DAG) (fn : Node → Except String Answer) :
    ∀ (fuel : Nat) (cur : UUID) (acc p : List Answer),
      walkF d fn fuel cur acc = some (p, none) →
      ∃ suffix, p = acc ++ suffix ∧ chainFromB d cur suffix = true := by
  intro fuel
  induction fuel with
  | zero => intro cur acc p h; simp [walkF] at h
  | succ n ih =>
    intro cur acc p h
    rw [walkF] at h
    cases hn : d.GetNode cur with
    | none => rw [hn] at h; simp at h
    | some node =>
      rw [hn] at h
      dsimp only at h
      by_cases hz : node.Answers.length = 0
      · rw [if_pos hz] at h
        refine ⟨[], ?_, ?_⟩
        · have := (Option.some.injEq _ _).mp h
          simpa using (Prod.mk.injEq _ _ _ _).mp this |>.1.symm
        · have hnil : node.Answers = [] := List.length_eq_zero.mp hz
          simp [chainFromB, hn, hnil]
      · rw [if_neg hz] at h
        cases hfn : fn node with
        | error e => rw [hfn] at h; simp at h
        | ok sel =>
          rw [hfn] at h
          dsimp only at h
          by_cases hany : node.Answers.any (fun a => a.Id = sel.Id)
          · rw [if_pos hany] at h
            cases hnx : sel.NextNode with
            | none =>
              rw [hnx] at h
              have h1 := (Option.some.injEq _ _).mp h
              have h2 := (Prod.mk.injEq _ _ _ _).mp h1
              refine ⟨[sel], h2.1.symm, ?_⟩
              have hne : node.Answers ≠ [] := fun hnil => hz (by rw [hnil]; rfl)
              have hie : node.Answers.isEmpty = false := by
                cases hans : node.Answers with
                | nil => exact absurd hans hne
                | cons a l => rfl
              simp only [chainFromB, hn, hnx]
              simp [hie, hany]
            | some nxt =>
              rw [hnx] at h
              obtain ⟨s', hp, hc⟩ := ih nxt (acc ++ [sel]) p h
              refine ⟨sel :: s', by simpa using hp, ?_⟩
              have hne : node.Answers ≠ [] := fun hnil => hz (by rw [hnil]; rfl)
              have hie : node.Answers.isEmpty = false := by
                cases hans : node.Answers with
                | nil => exact absurd hans hne
                | cons a l => rfl
              simp only [chainFromB, hn, hnx]
              simp [hie, hany, hc]
          · rw [if_neg hany] at h; simp at h

/-- C10: whenever `Walk` returns a path without error the path is a
chain through the graph: each element is (by id) one of the answers of
the node reached so far, only the last element may be terminal, and the
walk ends at a terminal answer or at a node without answers; a walk
started at a node with zero answers returns the empty path without
error. -/
theorem C10_walk_returns_chain (d : DAG) (start : UUID)
    (fn : Node → Except String Answer) :
    (∀ p, DAG.Walk d start fn = some (p, none) → chainFromB d start p = true) ∧
    (∀ node, d.GetNode start = some node → node.Answers = [] →
      DAG.Walk d start fn = some ([], none)) := by
  constructor
  · intro p h
    obtain ⟨s, hp, hc⟩ := walkF_chain d fn (d.Nodes.length + 1) start [] p h
    simpa [hp] using hc
  · intro node hn hz
    unfold DAG.Walk
    show walkF d fn (d.Nodes.length + 1) start [] = _
    rw [walkF, hn]
    simp [hz]

/-- Witness for C10: on the example graph, the first-answer strategy
walks `root → A → C` and the returned path is a chain; starting at the
leaf `B` yields the empty path without error. -/
theorem C10_walk_returns_chain_witness :
    DAG.Walk gChain 1 headStrategy =
      some ([mkAnswer 10 "to A" (some 2), mkAnswer 12 "to C" (some 4)], none) ∧
    chainFromB gChain 1
      [mkAnswer 10 "to A" (some 2), mkAnswer 12 "to C" (some 4)] = true ∧
    DAG.Walk gChain 3 headStrategy = some ([], none) := by
  refine ⟨rfl, ?_, ?_⟩
  · exact (C10_walk_returns_chain gChain 1 headStrategy).1
      [mkAnswer 10 "to A" (some 2), mkAnswer 12 "to C" (some 4)] rfl
  · exact (C10_walk_returns_chain gChain 3 headStrategy).2 ⟨3, "Q3", []⟩ rfl rfl

/-! ### C8: walk termination on acyclic inputs -/

theorem transGen_rank {d : DAG} {f : UUID → Nat}
    (hf : ∀ a b, Edge d a b → f b < f a) {a b : UUID}
    (h : Relation.TransGen (Edge d) a b) : f b < f a := by
  induction h with
  | single h1 => exact hf _ _ h1
  | tail _ h2 ih => exact lt_trans (hf _ _ h2) ih

/-- A strictly decreasing rank along the edges makes a graph acyclic. -/
theorem acyclic_of_rank (d : DAG) (f : UUID → Nat)
    (hf : ∀ a b, Edge d a b → f b < f a) : Acyclic d := by
  intro x hx
  exact absurd (transGen_rank hf hx) (lt_irrefl _)

/-- An edge-free graph is acyclic. -/
theorem acyclic_of_no_edge (d : DAG) (h : ∀ a b, ¬ Edge d a b) : Acyclic d := by
  intro x hx
  cases hx with
  | single h1 => exact h _ _ h1
  | tail _ h2 => exact h _ _ h2

theorem walkGoF_ne_none {d : DAG} (fn : Node → Except String Answer)
    (hacy : Acyclic d) :
    ∀ (fuel : Nat) (cur : UUID) (acc : List Answer) (seen : List UUID),
      seen.Nodup → (∀ x ∈ seen, x ∈ nodeKeys d) →
      (∀ x ∈ seen, Relation.TransGen (Edge d) x cur) →
      (nodeKeys d).length < fuel + seen.length →
      walkGoF d fn fuel cur acc ≠ none := by
  intro fuel
  induction fuel with
  | zero =>
    intro cur acc seen hnd hsub _ hlt
    have hle : seen.length ≤ (nodeKeys d).length :=
      (List.subperm_of_subset hnd (fun x hx => hsub x hx)).length_le
    omega
  | succ n ih =>
    intro cur acc seen hnd hsub hreach hlt
    rw [walkGoF]
    cases hn : d.GetNode cur with
    | none => simp
    | some node =>
      dsimp only
      by_cases hz : node.Answers.length = 0
      · simp [hz]
      · rw [if_neg hz]
        cases hfn : fn node with
        | error e => simp
        | ok sel =>
          dsimp only
          cases hfind : node.Answers.find? (fun a => a.Id = sel.Id) with
          | none => simp [hfind]
          | some va =>
            dsimp only
            cases hnx : va.NextNode with
            | none => simp
            | some nxt =>
              have hedge : Edge d cur nxt := by
                unfold Edge childIds
                rw [hn]
                exact List.mem_filterMap.mpr
                  ⟨va, List.mem_of_find?_eq_some hfind, hnx⟩
              have hcur : cur ∉ seen := by
                intro hmem
                exact hacy cur (hreach cur hmem)
              refine ih nxt (acc ++ [va]) (cur :: seen) ?_ ?_ ?_ ?_
              · exact List.nodup_cons.mpr ⟨hcur, hnd⟩
              · intro x hx
                rcases List.mem_cons.mp hx with h1 | h1
                · exact h1 ▸ edge_src_mem hedge
                · exact hsub x h1
              · intro x hx
                rcases List.mem_cons.mp hx with h1 | h1
                · exact h1 ▸ Relation.TransGen.single hedge
                · exact Relation.TransGen.tail (hreach x h1) hedge
              · have hlen : (cur :: seen).length = seen.length + 1 := rfl
                omega

theorem walkF_ne_none {d : DAG} (fn : Node → Except String Answer)
    (hacy : Acyclic d)
    (hfn : ∀ node sel nxt, fn node = .ok sel → sel.NextNode = some nxt →
      nxt ∈ node.Answers.filterMap (fun a => a.NextNode)) :
    ∀ (fuel : Nat) (cur : UUID) (acc : List Answer) (seen : List UUID),
      seen.Nodup → (∀ x ∈ seen, x ∈ nodeKeys d) →
      (∀ x ∈ seen, Relation.TransGen (Edge d) x cur) →
      (nodeKeys d).length < fuel + seen.length →
      walkF d fn fuel cur acc ≠ none := by
  intro fuel
  induction fuel with
  | zero =>
    intro cur acc seen hnd hsub _ hlt
    have hle : seen.length ≤ (nodeKeys d).length :=
      (List.subperm_of_subset hnd (fun x hx => hsub x hx)).length_le
    omega
  | succ n ih =>
    intro cur acc seen hnd hsub hreach hlt
    rw [walkF]
    cases hn : d.GetNode cur with
    | none => simp
    | some node =>
      dsimp only
      by_cases hz : node.Answers.length = 0
      · simp [hz]
      · rw [if_neg hz]
        cases hfe : fn node with
        | error e => simp
        | ok sel =>
          dsimp only
          by_cases hany : node.Answers.any (fun a => a.Id = sel.Id)
          · rw [if_pos hany]
            cases hnx : sel.NextNode with
            | none => simp
            | some nxt =>
              have hedge : Edge d cur nxt := by
                unfold Edge childIds
                rw [hn]
                exact hfn node sel nxt hfe hnx
              have hcur : cur ∉ seen := by
                intro hmem
                exact hacy cur (hreach cur hmem)
              refine ih nxt (acc ++ [sel]) (cur :: seen) ?_ ?_ ?_ ?_
              · exact List.nodup_cons.mpr ⟨hcur, hnd⟩
              · intro x hx
                rcases List.mem_cons.mp hx with h1 | h1
                · exact h1 ▸ edge_src_mem hedge
                · exact hsub x h1
              · intro x hx
                rcases List.mem_cons.mp hx with h1 | h1
                · exact h1 ▸ Relation.TransGen.single hedge
                · exact Relation.TransGen.tail (hreach x h1) hedge
              · have hlen : (cur :: seen).length = seen.length + 1 := rfl
                omega
          · simp [hany]

theorem gLoopBait_no_edge : ∀ a b, ¬ Edge gLoopBait a b := by
  intro a b h
  unfold Edge childIds DAG.GetNode at h
  by_cases h1 : (1 : UUID) = a
  · rw [show gLoopBait.Nodes = [(1, ⟨1, "Q1", [mkAnswer 10 "stop" none]⟩)] from rfl]
    at h
    simp [alookup, h1, mkAnswer] at h
  · rw [show gLoopBait.Nodes = [(1, ⟨1, "Q1", [mkAnswer 10 "stop" none]⟩)] from rfl]
    at h
    simp [alookup, h1] at h

/-- C8 counterexample: `gLoopBait` is an acyclic one-node graph, yet the
walk from node `1` under a strategy that answers with the valid id `10`
but a forged `next_node` back to node `1` exhausts its fuel (the Go loop
revisits node `1` forever), contradicting the claimed termination for
every strategy on every acyclic graph. -/
theorem C8_counterexample :
    Acyclic gLoopBait ∧ DAG.Walk gLoopBait 1 forgeStrategy = none := by
  exact ⟨acyclic_of_no_edge _ gLoopBait_no_edge, rfl⟩

/-- C8 amended: the `internal/dag` walk (which follows the node's own
matched answer) terminates on every acyclic graph for every strategy and
start node; the backend walk (which follows the strategy's returned
answer) terminates on acyclic graphs provided every `next_node` the
strategy returns is a `next_node` of the current node's own answers; a
strategy forging `next_node` makes the backend walk run forever even on
an acyclic one-node graph. -/
theorem C8_walk_termination :
    (∀ (d : DAG) (fn : Node → Except String Answer) (start : UUID),
      Acyclic d → walkGoF d fn (d.Nodes.length + 1) start [] ≠ none) ∧
    (∀ (d : DAG) (fn : Node → Except String Answer) (start : UUID),
      Acyclic d →
      (∀ node sel nxt, fn node = .ok sel → sel.NextNode = some nxt →
        nxt ∈ node.Answers.filterMap (fun a => a.NextNode)) →
      DAG.Walk d start fn ≠ none) ∧
    (∀ fuel acc, walkF gLoopBait forgeStrategy fuel 1 acc = none) := by
  refine ⟨?_, ?_, ?_⟩
  · intro d fn start hacy
    refine walkGoF_ne_none fn hacy (d.Nodes.length + 1) start [] [] (by simp)
      (by simp) (by simp) ?_
    have : (nodeKeys d).length = d.Nodes.length := by simp [nodeKeys]
    omega
  · intro d fn start hacy hfn
    unfold DAG.Walk
    refine walkF_ne_none fn hacy hfn (d.Nodes.length + 1) start [] [] (by simp)
      (by simp) (by simp) ?_
    have : (nodeKeys d).length = d.Nodes.length := by simp [nodeKeys]
    omega
  · intro fuel
    induction fuel with
    | zero => intro acc; rfl
    | succ n ih =>
      intro acc
      rw [walkF]
      show (match gLoopBait.GetNode 1 with
        | none => some (acc, some (.nodeNotFound 1))
        | some node => _) = none
      simp only [show gLoopBait.GetNode 1 =
        some ⟨1, "Q1", [mkAnswer 10 "stop" none]⟩ from rfl]
      simpa [forgeStrategy, mkAnswer] using ih (acc ++ [⟨10, "forged", some 1, none, "", []⟩])

/-- Witness for C8: the example graph is acyclic (node ids strictly
increase along every edge), so both walk variants terminate from the
root under the first-answer strategy. -/
theorem C8_walk_termination_witness :
    walkGoF gChain headStrategy (gChain.Nodes.length + 1) 1 [] ≠ none ∧
    DAG.Walk gChain 1 headStrategy ≠ none := by
  have hacy : Acyclic gChain := by
    refine acyclic_of_rank gChain (fun x => 10 - x) ?_
    intro a b h
    dsimp only
    have ha : a ∈ nodeKeys gChain := edge_src_mem h
    have hka : a = 1 ∨ a = 2 ∨ a = 3 ∨ a = 4 := by
      simpa [nodeKeys, gChain] using ha
    unfold Edge childIds DAG.GetNode at h
    rcases hka with rfl | rfl | rfl | rfl
    · rw [show gChain.Nodes = [(1, ⟨1, "Q1", [mkAnswer 10 "to A" (some 2),
        mkAnswer 11 "to B" (some 3)]⟩), (2, ⟨2, "Q2", [mkAnswer 12 "to C" (some 4)]⟩),
        (3, ⟨3, "Q3", []⟩), (4, ⟨4, "Q4", []⟩)] from rfl] at h
      simp [alookup, mkAnswer] at h
      rcases h with rfl | rfl <;> omega
    · rw [show gChain.Nodes = [(1, ⟨1, "Q1", [mkAnswer 10 "to A" (some 2),
        mkAnswer 11 "to B" (some 3)]⟩), (2, ⟨2, "Q2", [mkAnswer 12 "to C" (some 4)]⟩),
        (3, ⟨3, "Q3", []⟩), (4, ⟨4, "Q4", []⟩)] from rfl] at h
      simp [alookup, mkAnswer] at h
      subst h
      omega
    · rw [show gChain.Nodes = [(1, ⟨1, "Q1", [mkAnswer 10 "to A" (some 2),
        mkAnswer 11 "to B" (some 3)]⟩), (2, ⟨2, "Q2", [mkAnswer 12 "to C" (some 4)]⟩),
        (3, ⟨3, "Q3", []⟩), (4, ⟨4, "Q4", []⟩)] from rfl] at h
      simp [alookup, mkAnswer] at h
    · rw [show gChain.Nodes = [(1, ⟨1, "Q1", [mkAnswer 10 "to A" (some 2),
        mkAnswer 11 "to B" (some 3)]⟩), (2, ⟨2, "Q2", [mkAnswer 12 "to C" (some 4)]⟩),
        (3, ⟨3, "Q3", []⟩), (4, ⟨4, "Q4", []⟩)] from rfl] at h
      simp [alookup, mkAnswer] at h
  constructor
  · exact C8_walk_termination.1 gChain headStrategy 1 hacy
  · refine C8_walk_termination.2.1 gChain headStrategy 1 hacy ?_
    intro node sel nxt hsel hnx
    unfold headStrategy at hsel
    have hsel' : sel = node.Answers.headD (mkAnswer 0 "" none) := by
      simpa using hsel.symm
    cases hans : node.Answers with
    | nil =>
      rw [hans] at hsel'
      simp [mkAnswer] at hsel'
      rw [hsel'] at hnx
      simp at hnx
    | cons a rest =>
      rw [hans] at hsel'
      simp at hsel'
      exact List.mem_filterMap.mpr ⟨a, by simp, by rw [← hsel']; exact hnx⟩

/-! ### C5: maximum depth via breadth-first traversal -/

theorem bfsAux_mono (d : DAG) :
    ∀ (fuel fuel2 : Nat) (Q : List (UUID × Nat)) (vis : List UUID) (m v : Nat),
      fuel ≤ fuel2 → bfsAux d fuel Q vis m = some v →
      bfsAux d fuel2 Q vis m = some v := by
  intro fuel
  induction fuel with
  | zero =>
    intro fuel2 Q vis m v _ h
    cases Q with
    | nil => simpa [bfsAux] using h
    | cons q qs => obtain ⟨a, b⟩ := q; simp [bfsAux] at h
  | succ n ih =>
    intro fuel2 Q vis m v hle h
    cases Q with
    | nil => simpa [bfsAux] using h
    | cons q qs =>
      obtain ⟨id, dep⟩ := q
      cases fuel2 with
      | zero => omega
      | succ n2 =>
        rw [bfsAux] at h ⊢
        by_cases hv : id ∈ vis
        · rw [if_pos hv] at h ⊢
          exact ih n2 qs vis m v (by omega) h
        · rw [if_neg hv] at h ⊢
          exact ih n2 _ _ _ v (by omega) h

theorem bfs_round_bridge (d : DAG) (dep : Nat) :
    ∀ (A B vis : List UUID) (maxD fuel : Nat),
      bfsAux d (A.length + fuel)
        ((A.map (fun a => (a, dep))) ++ (B.map (fun b => (b, dep + 1)))) vis maxD
      = bfsAux d fuel
          ((A.foldl (roundAcc d dep) (vis, B, maxD)).2.1.map
            (fun b => (b, dep + 1)))
          (A.foldl (roundAcc d dep) (vis, B, maxD)).1
          (A.foldl (roundAcc d dep) (vis, B, maxD)).2.2 := by
  intro A
  induction A with
  | nil =>
    intro B vis maxD fuel
    simp
  | cons a A ih =>
    intro B vis maxD fuel
    have hlen : (a :: A).length + fuel = (A.length + fuel) + 1 := by
      simp [List.length_cons]
      omega
    rw [hlen]
    have hq : ((a :: A).map (fun a => (a, dep))) ++ (B.map (fun b => (b, dep + 1)))
        = (a, dep) :: ((A.map (fun a => (a, dep))) ++ (B.map (fun b => (b, dep + 1)))) := by
      simp
    rw [hq, bfsAux]
    by_cases hv : a ∈ vis
    · rw [if_pos hv]
      have hacc : (a :: A).foldl (roundAcc d dep) (vis, B, maxD)
          = A.foldl (roundAcc d dep) (vis, B, maxD) := by
        rw [List.foldl_cons, roundAcc, if_pos hv]
      rw [hacc]
      exact ih B vis maxD fuel
    · rw [if_neg hv]
      have hacc : (a :: A).foldl (roundAcc d dep) (vis, B, maxD)
          = A.foldl (roundAcc d dep)
              (a :: vis,
               B ++ (childIds d a).filter (fun c => c ∉ a :: vis),
               if dep > maxD then dep else maxD) := by
        rw [List.foldl_cons, roundAcc, if_neg hv]
      rw [hacc]
      have hq2 : (A.map (fun a => (a, dep))) ++ (B.map (fun b => (b, dep + 1)))
            ++ (((childIds d a).filter (fun c => c ∉ a :: vis)).map
              (fun c => (c, dep + 1)))
          = (A.map (fun a => (a, dep)))
            ++ ((B ++ (childIds d a).filter (fun c => c ∉ a :: vis)).map
              (fun b => (b, dep + 1))) := by
        rw [List.map_append, List.append_assoc]
      dsimp only
      rw [hq2]
      exact ih (B ++ (childIds d a).filter (fun c => c ∉ a :: vis)) (a :: vis)
        (if dep > maxD then dep else maxD) fuel

theorem rounds_eq (d : DAG) :
    ∀ (nf : Nat) (vis front : List UUID) (dep maxD v : Nat),
      specRoundsF d nf vis front dep maxD = some v →
      ∃ bf, bfsAux d bf (front.map (fun a => (a, dep))) vis maxD = some v := by
  intro nf
  induction nf with
  | zero =>
    intro vis front dep maxD v h
    cases front with
    | nil =>
      simp [specRoundsF] at h
      exact ⟨0, by simp [bfsAux, h]⟩
    | cons f fs => simp [specRoundsF] at h
  | succ n ih =>
    intro vis front dep maxD v h
    cases front with
    | nil =>
      simp [specRoundsF] at h
      exact ⟨0, by simp [bfsAux, h]⟩
    | cons f fs =>
      rw [specRoundsF] at h
      obtain ⟨bf, hbf⟩ := ih _ _ _ _ v h
      refine ⟨(f :: fs).length + bf, ?_⟩
      have hb := bfs_round_bridge d dep (f :: fs) [] vis maxD bf
      simp only [List.map_nil, List.append_nil] at hb
      rw [hb]
      rw [roundStep] at hbf
      exact hbf
      simp

theorem roundFold_vis_mono (d : DAG) (dep : Nat) :
    ∀ (front : List UUID) (acc : List UUID × List UUID × Nat),
      acc.1 ⊆ (front.foldl (roundAcc d dep) acc).1 := by
  intro front
  induction front with
  | nil => intro acc; exact List.Subset.refl _
  | cons f fs ih =>
    intro acc
    rw [List.foldl_cons]
    refine List.Subset.trans ?_ (ih (roundAcc d dep acc f))
    rw [roundAcc]
    by_cases hv : f ∈ acc.1
    · rw [if_pos hv]
      exact List.Subset.refl _
    · rw [if_neg hv]
      exact fun x hx => List.mem_cons_of_mem _ hx

theorem roundFold_mem (d : DAG) (dep : Nat) :
    ∀ (front : List UUID) (acc : List UUID × List UUID × Nat),
      ∀ x ∈ front, x ∈ (front.foldl (roundAcc d dep) acc).1 := by
  intro front
  induction front with
  | nil => intro acc x hx; cases hx
  | cons f fs ih =>
    intro acc x hx
    rw [List.foldl_cons]
    rcases List.mem_cons.mp hx with hx1 | hx1
    · subst hx1
      refine roundFold_vis_mono d dep fs (roundAcc d dep acc x) ?_
      rw [roundAcc]
      by_cases hv : x ∈ acc.1
      · rw [if_pos hv]
        exact hv
      · rw [if_neg hv]
        exact List.mem_cons_self _ _
    · exact ih (roundAcc d dep acc f) x hx1

theorem roundFold_all_vis (d : DAG) (dep : Nat) :
    ∀ (front : List UUID) (acc : List UUID × List UUID × Nat),
      (∀ x ∈ front, x ∈ acc.1) → front.foldl (roundAcc d dep) acc = acc := by
  intro front
  induction front with
  | nil => intro acc _; rfl
  | cons f fs ih =>
    intro acc hall
    rw [List.foldl_cons, roundAcc, if_pos (hall f (List.mem_cons_self f fs))]
    exact ih acc (fun x hx => hall x (List.mem_cons_of_mem _ hx))

theorem roundFold_front_sub (d : DAG) (dep : Nat) :
    ∀ (front : List UUID) (acc : List UUID × List UUID × Nat),
      (∀ x ∈ acc.2.1, x ∈ allIdsD d) →
      ∀ x ∈ (front.foldl (roundAcc d dep) acc).2.1, x ∈ allIdsD d := by
  intro front
  induction front with
  | nil => intro acc hacc x hx; exact hacc x hx
  | cons f fs ih =>
    intro acc hacc
    rw [List.foldl_cons]
    refine ih (roundAcc d dep acc f) ?_
    intro x hx
    rw [roundAcc] at hx
    by_cases hv : f ∈ acc.1
    · rw [if_pos hv] at hx
      exact hacc x hx
    · rw [if_neg hv] at hx
      dsimp only at hx
      rcases List.mem_append.mp hx with hx1 | hx1
      · exact hacc x hx1
      · exact childIds_subset_allIds d f x (List.mem_of_mem_filter hx1)

theorem specRoundsF_some (d : DAG) :
    ∀ (nf : Nat) (vis front : List UUID) (dep maxD : Nat),
      (∀ x ∈ front, x ∈ allIdsD d) →
      ((allIdsD d).filter (fun x => x ∉ vis)).length + 2 ≤ nf →
      specRoundsF d nf vis front dep maxD ≠ none := by
  intro nf
  induction nf with
  | zero => intro vis front dep maxD _ hf; omega
  | succ n ih =>
    intro vis front dep maxD hsub hf
    cases front with
    | nil => simp [specRoundsF]
    | cons f fs =>
      rw [specRoundsF]
      cases hnext : (roundStep d vis (f :: fs) dep maxD).2.1 with
      | nil =>
        simp [specRoundsF]
      | cons g gs =>
        have hfresh : ∃ a ∈ f :: fs, a ∉ vis := by
          by_contra hall
          push_neg at hall
          have := roundFold_all_vis d dep (f :: fs) (vis, [], maxD)
            (fun x hx => hall x hx)
          rw [roundStep, this] at hnext
          simp at hnext
        obtain ⟨a, haf, hav⟩ := hfresh
        have hamem : a ∈ (roundStep d vis (f :: fs) dep maxD).1 :=
          roundFold_mem d dep (f :: fs) (vis, [], maxD) a haf
        have hvsub : vis ⊆ (roundStep d vis (f :: fs) dep maxD).1 :=
          roundFold_vis_mono d dep (f :: fs) (vis, [], maxD)
        have hsub2 : a :: vis ⊆ (roundStep d vis (f :: fs) dep maxD).1 := by
          intro x hx
          rcases List.mem_cons.mp hx with hx1 | hx1
          · subst hx1
            exact hamem
          · exact hvsub hx1
        have hlt1 := filter_unvisited_mono (allIdsD d) hsub2
        have hlt2 := filter_unvisited_lt (allIdsD d) vis a (hsub a haf) hav
        have hbound : ((allIdsD d).filter
            (fun x => x ∉ (roundStep d vis (f :: fs) dep maxD).1)).length + 2 ≤ n := by
          omega
        have hfsub : ∀ x ∈ (roundStep d vis (f :: fs) dep maxD).2.1, x ∈ allIdsD d := by
          refine roundFold_front_sub d dep (f :: fs) (vis, [], maxD) ?_
          intro x hx
          cases hx
        rw [← hnext]
        exact ih (roundStep d vis (f :: fs) dep maxD).1
          (roundStep d vis (f :: fs) dep maxD).2.1 (dep + 1)
          (roundStep d vis (f :: fs) dep maxD).2.2 hfsub hbound
      simp

theorem sum_filter_fresh (g : UUID → Nat) :
    ∀ (l vis : List UUID) (a : UUID), l.Nodup → a ∈ l → a ∉ vis →
      ((l.filter (fun x => x ∉ vis)).map g).sum
        = g a + ((l.filter (fun x => x ∉ a :: vis)).map g).sum := by
  intro l
  induction l with
  | nil => intro vis a _ ha _; cases ha
  | cons b t ih =>
    intro vis a hnd ha hav
    rcases List.mem_cons.mp ha with hb | ht
    · subst hb
      have hat : a ∉ t := (List.nodup_cons.mp hnd).1
      have hft : t.filter (fun x => x ∉ a :: vis) = t.filter (fun x => x ∉ vis) := by
        refine List.filter_congr ?_
        intro x hx
        have hxa : x ≠ a := fun he => hat (he ▸ hx)
        simp [hxa]
      have hfa : (a :: t).filter (fun x => x ∉ vis)
          = a :: t.filter (fun x => x ∉ vis) := by
        simp [List.filter_cons, hav]
      have hfa2 : (a :: t).filter (fun x => x ∉ a :: vis)
          = t.filter (fun x => x ∉ a :: vis) := by
        simp [List.filter_cons]
      rw [hfa, hfa2, hft]
      simp
    · have hba : b ≠ a := fun he => (List.nodup_cons.mp hnd).1 (he ▸ ht)
      have hnd2 := (List.nodup_cons.mp hnd).2
      by_cases hbv : b ∈ vis
      · have hfb : (b :: t).filter (fun x => x ∉ vis)
            = t.filter (fun x => x ∉ vis) := by
          simp [List.filter_cons, hbv]
        have hfb2 : (b :: t).filter (fun x => x ∉ a :: vis)
            = t.filter (fun x => x ∉ a :: vis) := by
          simp [List.filter_cons, List.mem_cons, hbv]
        rw [hfb, hfb2]
        exact ih vis a hnd2 ht hav
      · have hfb : (b :: t).filter (fun x => x ∉ vis)
            = b :: t.filter (fun x => x ∉ vis) := by
          simp [List.filter_cons, hbv]
        have hfb2 : (b :: t).filter (fun x => x ∉ a :: vis)
            = b :: t.filter (fun x => x ∉ a :: vis) := by
          simp [List.filter_cons, List.mem_cons, hba, hbv]
        rw [hfb, hfb2]
        simp only [List.map_cons, List.sum_cons]
        rw [ih vis a hnd2 ht hav]
        omega

theorem bfsAux_some (d : DAG) :
    ∀ (fuel : Nat) (Q : List (UUID × Nat)) (vis : List UUID) (m : Nat),
      (∀ q ∈ Q, q.1 ∈ allIdsD d) →
      Q.length + bfsPotential d vis ≤ fuel →
      bfsAux d fuel Q vis m ≠ none := by
  intro fuel
  induction fuel with
  | zero =>
    intro Q vis m _ hb
    cases Q with
    | nil => simp [bfsAux]
    | cons q qs =>
      exfalso
      rw [List.length_cons] at hb
      omega
  | succ n ih =>
    intro Q vis m hQ hb
    cases Q with
    | nil => simp [bfsAux]
    | cons q qs =>
      obtain ⟨id, dep⟩ := q
      rw [bfsAux]
      by_cases hv : id ∈ vis
      · rw [if_pos hv]
        refine ih qs vis m (fun x hx => hQ x (List.mem_cons_of_mem _ hx)) ?_
        rw [List.length_cons] at hb
        omega
      · rw [if_neg hv]
        dsimp only
        refine ih _ _ _ ?_ ?_
        · intro x hx
          rcases List.mem_append.mp hx with h1 | h1
          · exact hQ x (List.mem_cons_of_mem _ h1)
          · obtain ⟨c, hc, hce⟩ := List.mem_map.mp h1
            rw [← hce]
            exact childIds_subset_allIds d id c (List.mem_of_mem_filter hc)
        · have hid : id ∈ allIdsD d := hQ (id, dep) (List.mem_cons_self _ _)
          have hpot := sum_filter_fresh (fun x => (childIds d x).length)
            (allIdsD d) vis id (List.nodup_dedup _) hid hv
          dsimp only at hpot
          have hlen : (((childIds d id).filter (fun c => c ∉ id :: vis)).map
              (fun c => (c, dep + 1))).length ≤ (childIds d id).length := by
            rw [List.length_map]
            exact (List.filter_sublist _).length_le
          rw [List.length_cons] at hb
          rw [List.length_append]
          unfold bfsPotential at hb ⊢
          omega

theorem lookup_sum_le (f : Node → Nat) :
    ∀ (nodes : List (UUID × Node)) (l : List UUID), l.Nodup →
      (l.map (fun x => ((alookup nodes x).map f).getD 0)).sum
        ≤ (nodes.map (fun kv => f kv.2)).sum := by
  intro nodes
  induction nodes with
  | nil =>
    intro l _
    have h0 : (l.map (fun x => ((alookup ([] : List (UUID × Node)) x).map f).getD 0))
        = l.map (fun _ => 0) := by
      refine List.map_congr_left ?_
      intro x _
      rfl
    rw [h0]
    simp
  | cons kv rest ih =>
    intro l hnd
    by_cases hk : kv.1 ∈ l
    · have hperm : l.Perm (kv.1 :: l.erase kv.1) := List.perm_cons_erase hk
      have hsum : (l.map (fun x => ((alookup (kv :: rest) x).map f).getD 0)).sum
          = ((kv.1 :: l.erase kv.1).map
              (fun x => ((alookup (kv :: rest) x).map f).getD 0)).sum :=
        (hperm.map _).sum_eq
      rw [hsum]
      simp only [List.map_cons, List.sum_cons]
      have hhead : ((alookup (kv :: rest) kv.1).map f).getD 0 = f kv.2 := by
        obtain ⟨k0, v0⟩ := kv
        simp [alookup]
      have htail : ((l.erase kv.1).map
            (fun x => ((alookup (kv :: rest) x).map f).getD 0))
          = ((l.erase kv.1).map (fun x => ((alookup rest x).map f).getD 0)) := by
        refine List.map_congr_left ?_
        intro x hx
        have hxk : x ≠ kv.1 := ((List.Nodup.mem_erase_iff hnd).mp hx).1
        obtain ⟨k0, v0⟩ := kv
        simp only [alookup]
        rw [if_neg (fun he => hxk he.symm)]
      rw [hhead, htail]
      have := ih (l.erase kv.1) (hnd.erase _)
      omega
    · have hall : (l.map (fun x => ((alookup (kv :: rest) x).map f).getD 0))
          = l.map (fun x => ((alookup rest x).map f).getD 0) := by
        refine List.map_congr_left ?_
        intro x hx
        have hxk : x ≠ kv.1 := fun he => hk (he ▸ hx)
        obtain ⟨k0, v0⟩ := kv
        simp only [alookup]
        rw [if_neg (fun he => hxk he.symm)]
      rw [hall]
      have := ih l hnd
      simp only [List.map_cons, List.sum_cons]
      omega

theorem bfsPotential_le (d : DAG) : bfsPotential d [] ≤ totalAnswersD d := by
  unfold bfsPotential totalAnswersD
  have h1 : (allIdsD d).filter (fun x => x ∉ ([] : List UUID)) = allIdsD d := by
    simp
  rw [h1]
  have h2 : ∀ x ∈ allIdsD d, (childIds d x).length
      ≤ ((alookup d.Nodes x).map (fun n => n.Answers.length)).getD 0 := by
    intro x _
    unfold childIds DAG.GetNode
    cases h : alookup d.Nodes x with
    | none => simp
    | some n =>
      simp only [Option.map_some, Option.getD_some]
      exact List.length_filterMap_le _ _
  refine le_trans (List.sum_le_sum h2) ?_
  exact lookup_sum_le (fun n => n.Answers.length) d.Nodes (allIdsD d)
    (List.nodup_dedup _)

theorem specMaxDepth_run (d : DAG) {r : UUID} (hr : r ∈ allIdsD d) :
    ∃ v, specRoundsF d (roundsFuel d) [] [r] 0 0 = some v ∧
      bfsAux d (bfsFuel d) [(r, 0)] [] 0 = some v := by
  have h1 : specRoundsF d (roundsFuel d) [] [r] 0 0 ≠ none := by
    refine specRoundsF_some d (roundsFuel d) [] [r] 0 0 ?_ ?_
    · intro x hx
      rcases List.mem_cons.mp hx with hx1 | hx1
      · subst hx1
        exact hr
      · cases hx1
    · unfold roundsFuel
      have hle : ((allIdsD d).filter (fun x => x ∉ ([] : List UUID))).length
          ≤ (allIdsD d).length := (List.filter_sublist _).length_le
      omega
  have h2 : bfsAux d (bfsFuel d) [(r, 0)] [] 0 ≠ none := by
    refine bfsAux_some d (bfsFuel d) [(r, 0)] [] 0 ?_ ?_
    · intro q hq
      rcases List.mem_cons.mp hq with hq1 | hq1
      · rw [hq1]
        exact hr
      · cases hq1
    · have hple := bfsPotential_le d
      unfold bfsFuel
      simp only [List.length_cons, List.length_nil]
      omega
  cases hv : specRoundsF d (roundsFuel d) [] [r] 0 0 with
  | none => exact absurd hv h1
  | some v =>
    obtain ⟨bf, hbf⟩ := rounds_eq d (roundsFuel d) [] [r] 0 0 v hv
    have hbf2 : bfsAux d bf [(r, 0)] [] 0 = some v := by
      simpa using hbf
    cases hw : bfsAux d (bfsFuel d) [(r, 0)] [] 0 with
    | none => exact absurd hw h2
    | some w =>
      have hm1 := bfsAux_mono d bf (max bf (bfsFuel d)) [(r, 0)] [] 0 v
        (le_max_left _ _) hbf2
      have hm2 := bfsAux_mono d (bfsFuel d) (max bf (bfsFuel d)) [(r, 0)] [] 0 w
        (le_max_right _ _) hw
      rw [hm1] at hm2
      exact ⟨v, rfl, by rw [Option.some.inj hm2]⟩

theorem gChain_acyclic : Acyclic gChain := by
  refine acyclic_of_rank gChain (fun x => 10 - x) ?_
  intro a b h
  dsimp only
  have ha : a ∈ nodeKeys gChain := edge_src_mem h
  have hka : a = 1 ∨ a = 2 ∨ a = 3 ∨ a = 4 := by
    simpa [nodeKeys, gChain] using ha
  unfold Edge childIds DAG.GetNode at h
  rcases hka with rfl | rfl | rfl | rfl
  · rw [show gChain.Nodes = [(1, ⟨1, "Q1", [mkAnswer 10 "to A" (some 2),
      mkAnswer 11 "to B" (some 3)]⟩), (2, ⟨2, "Q2", [mkAnswer 12 "to C" (some 4)]⟩),
      (3, ⟨3, "Q3", []⟩), (4, ⟨4, "Q4", []⟩)] from rfl] at h
    simp [alookup, mkAnswer] at h
    rcases h with rfl | rfl <;> omega
  · rw [show gChain.Nodes = [(1, ⟨1, "Q1", [mkAnswer 10 "to A" (some 2),
      mkAnswer 11 "to B" (some 3)]⟩), (2, ⟨2, "Q2", [mkAnswer 12 "to C" (some 4)]⟩),
      (3, ⟨3, "Q3", []⟩), (4, ⟨4, "Q4", []⟩)] from rfl] at h
    simp [alookup, mkAnswer] at h
    subst h
    omega
  · rw [show gChain.Nodes = [(1, ⟨1, "Q1", [mkAnswer 10 "to A" (some 2),
      mkAnswer 11 "to B" (some 3)]⟩), (2, ⟨2, "Q2", [mkAnswer 12 "to C" (some 4)]⟩),
      (3, ⟨3, "Q3", []⟩), (4, ⟨4, "Q4", []⟩)] from rfl] at h
    simp [alookup, mkAnswer] at h
  · rw [show gChain.Nodes = [(1, ⟨1, "Q1", [mkAnswer 10 "to A" (some 2),
      mkAnswer 11 "to B" (some 3)]⟩), (2, ⟨2, "Q2", [mkAnswer 12 "to C" (some 4)]⟩),
      (3, ⟨3, "Q3", []⟩), (4, ⟨4, "Q4", []⟩)] from rfl] at h
    simp [alookup, mkAnswer] at h

/-- **C5.** With unique node-map keys: on an acyclic graph with exactly
one root, `ValidateDAG` reports `MaxDepth` equal to the maximum level
reached by a breadth-first traversal from that root, each node counted
at the depth where it is first reached; on a cyclic graph `MaxDepth` is
reported as zero. -/
theorem C5_max_depth (d : DAG) (hnd : (nodeKeys d).Nodup) :
    (∀ r, Acyclic d → OneRootSpec d r →
      (ValidateDAG (some d)).Statistics.MaxDepth = specMaxDepth d r) ∧
    (Cyclic d → (ValidateDAG (some d)).Statistics.MaxDepth = 0) := by
  obtain ⟨hg, ht, hsound⟩ := validateCycles_spec d
  have hmd : (ValidateDAG (some d)).Statistics.MaxDepth
      = (match (rootIds d).map uuidString, (validateCyclesRes d).1 with
         | r0 :: _, false => calculateMaxDepth d r0
         | _, _ => 0) := rfl
  constructor
  · intro r hacy horoot
    have hflag : (validateCyclesRes d).1 = false := by
      cases hfl : (validateCyclesRes d).1 with
      | false => rfl
      | true =>
        exfalso
        have hne := ht hfl
        cases hps : rawCyclePaths d with
        | nil => exact hne hps
        | cons p ps =>
          have hpm : p ∈ rawCyclePaths d := by
            rw [hps]
            exact List.mem_cons_self p ps
          obtain ⟨x, hx⟩ := goodCycle_cyclic (hg p hpm)
          exact hacy x hx
    have hroots : rootIds d = [r] := rootIds_of_oneRoot hnd horoot
    rw [hmd, hroots, hflag]
    show calculateMaxDepth d (uuidString r) = specMaxDepth d r
    have hne2 : uuidString r ≠ "" := by
      intro hh
      have hdata := congrArg String.data hh
      simp [uuidString] at hdata
    rw [calculateMaxDepth, if_neg hne2, uuid_roundtrip r]
    show (bfsAux d (bfsFuel d) [(r, 0)] [] 0).getD 0 = specMaxDepth d r
    have hr : r ∈ allIdsD d := nodeKeys_subset_allIds d r horoot.1
    obtain ⟨v, hv1, hv2⟩ := specMaxDepth_run d hr
    rw [specMaxDepth, hv1, hv2]
  · intro hcyc
    have hflag : (validateCyclesRes d).1 = true := by
      cases hfl : (validateCyclesRes d).1 with
      | true => rfl
      | false => exact absurd hcyc (hsound hfl)
    rw [hmd, hflag]
    cases (rootIds d).map uuidString with
    | nil => rfl
    | cons a b => rfl

theorem C5_max_depth_witness :
    ((nodeKeys gChain).Nodup ∧ OneRootSpec gChain 1 ∧
      (ValidateDAG (some gChain)).Statistics.MaxDepth = specMaxDepth gChain 1) ∧
    ((nodeKeys gNoRoot).Nodup ∧
      (ValidateDAG (some gNoRoot)).Statistics.MaxDepth = 0) :=
  ⟨⟨by decide, by decide,
    (C5_max_depth gChain (by decide)).1 1 gChain_acyclic (by decide)⟩,
   ⟨by decide,
    (C5_max_depth gNoRoot (by decide)).2
      ⟨1, Relation.TransGen.head (show Edge gNoRoot 1 2 by decide)
        (Relation.TransGen.single (show Edge gNoRoot 2 1 by decide))⟩⟩⟩

end Jurigen
